import Mathlib

/-!
Verification development for the minecraft-jars-java-descriptions pipeline.

The repository is a three-stage incremental synchronization pipeline
(meta.py, jars.py, index.py, util.py).  Each stage keeps a persisted
snapshot (a pydantic model holding nested insertion-ordered dicts) and an
update() operation that reconciles the snapshot against its upstream and
returns whether anything changed ("dirty").

Shallow embedding conventions:
* Python dicts are insertion-ordered association lists (List (K x V));
  lookup returns the first (unique) binding, assignment replaces the
  binding in place or appends a fresh one at the end, exactly as a dict.
* datetime values are modelled as Int (only equality and order are used).
* SHA-1 (hashlib.sha1(...).hexdigest()), HTTP fetching (requests.get),
  zip-archive parsing (ZipFile), UTF-8 decoding and the mapping-io
  subprocess are opaque collaborators; they are fields of an environment
  record, so every theorem quantifies over their behaviour.
* Python exceptions are modelled by an (Option String) error component
  carried next to the (possibly partially mutated) state, since Python
  exceptions do not roll back in-place mutations.
* Python list.sort / sorted are stable sorts; they are modelled by
  List.mergeSort (also stable) with the corresponding Bool order.
-/

/-! ## Insertion-ordered dictionaries (Python dict semantics) -/

/-- Raw bytes (Python bytes), as a list of byte values. -/
abbrev Bytes := List Nat

/-- First binding of key k in an insertion-ordered dict, Python d[k] / `k in d`. -/
def dictLookup {K V : Type} [DecidableEq K] : List (K × V) → K → Option V
  | [], _ => none
  | (k', v) :: rest, k => if k' = k then some v else dictLookup rest k

/-- Python `k in d`. -/
def dictContains {K V : Type} [DecidableEq K] (d : List (K × V)) (k : K) : Bool :=
  (dictLookup d k).isSome

/-- Python `d[k] = v`: replace the existing binding in place (keeping its
position and original key object), else append a new binding at the end. -/
def dictInsert {K V : Type} [DecidableEq K] : List (K × V) → K → V → List (K × V)
  | [], k, v => [(k, v)]
  | (k', v') :: rest, k, v =>
    if k' = k then (k', v) :: rest else (k', v') :: dictInsert rest k v

/-- Keys of a dict in insertion order. -/
def dictKeys {K V : Type} (d : List (K × V)) : List K := d.map Prod.fst

/-- Stable insertion into a sorted list: a goes before the first element
it compares less-or-equal to, hence before later equal elements. -/
def insertOrdered {α : Type} (le : α → α → Bool) (a : α) : List α → List α
  | [] => [a]
  | b :: l => if le a b then a :: b :: l else b :: insertOrdered le a l

/-- Stable insertion sort.  For a total preorder there is exactly one
stable sorted rearrangement, so this agrees extensionally with Python's
stable sorted()/list.sort(). -/
def stableSort {α : Type} (le : α → α → Bool) : List α → List α
  | [] => []
  | a :: l => insertOrdered le a (stableSort le l)

/-- util.sort_dict with key=None, reverse=False: dict rebuilt from items
sorted ascending.  Item tuples are compared by Python tuple order, and since
dict keys are unique only the key participates; sorted() is stable. -/
def sort_dict {V : Type} (d : List (String × V)) : List (String × V) :=
  stableSort (fun a b => decide (a.1 ≤ b.1)) d

/-! ## meta.py: data model -/

/-- meta.py JAR_NAMES: the allow-list of download kinds that become jars. -/
def JAR_NAMES : List String := ["client", "server", "windows_server"]

/-- meta.py MetaJar (pydantic model). -/
structure MetaJar where
  version_id : String
  version_file_id : String
  version_release_time : Int
  key : String
  sha1 : String
  url : String
deriving DecidableEq, Repr

/-- MetaJar.filename. -/
def MetaJar.filename (self : MetaJar) (extension : String) : String :=
  self.version_id ++ "-" ++ self.key ++ "." ++ extension

/-- Result of a record-level reconcile that may raise: the (possibly
mutated) record, the raised exception message if any, and the dirty flag. -/
structure RecResult (σ : Type) where
  state : σ
  error : Option String
  dirty : Bool
deriving DecidableEq, Repr

/-- MetaJar.update_kwargs: assert the four identity fields, then update
sha1 and url in place, reporting dirty.  All identity checks happen before
any mutation, so a raised mismatch leaves the record untouched. -/
def MetaJar.update_kwargs (self : MetaJar) (version_id version_file_id : String)
    (version_release_time : Int) (key sha1 url : String) : RecResult MetaJar :=
  if self.version_id ≠ version_id then
    ⟨self, some "MetaJar.update_kwargs mismatch version_id", false⟩
  else if self.version_file_id ≠ version_file_id then
    ⟨self, some "MetaJar.update_kwargs mismatch version_file_id", false⟩
  else if self.version_release_time ≠ version_release_time then
    ⟨self, some "MetaJar.update_kwargs mismatch version_release_time", false⟩
  else if self.key ≠ key then
    ⟨self, some "MetaJar.update_kwargs mismatch key", false⟩
  else
    let step1 : MetaJar × Bool :=
      if self.sha1 ≠ sha1 then ({ self with sha1 := sha1 }, true) else (self, false)
    let step2 : MetaJar × Bool :=
      if step1.1.url ≠ url then ({ step1.1 with url := url }, true) else (step1.1, step1.2)
    ⟨step2.1, none, step2.2⟩

/-- MetaJar.update: update_kwargs with the fields of another MetaJar. -/
def MetaJar.update (self meta_jar : MetaJar) : RecResult MetaJar :=
  self.update_kwargs meta_jar.version_id meta_jar.version_file_id
    meta_jar.version_release_time meta_jar.key meta_jar.sha1 meta_jar.url

/-- One download entry of a version descriptor json ("downloads" values). -/
structure Download where
  sha1 : String
  url : String
deriving DecidableEq, Repr

/-- A descriptor file as meta.py consumes it: the file name stem, the raw
bytes (only ever hashed), and the parsed json fields that are read. -/
structure VersionJsonFile where
  stem : String
  bytes : Bytes
  id : String
  releaseTime : Int
  downloads : List (String × Download)
deriving DecidableEq, Repr

/-- meta.py MetaVersion (pydantic model). -/
structure MetaVersion where
  id : String
  file_id : String
  release_time : Int
  sha1 : String
  jars : List (String × MetaJar)
deriving DecidableEq, Repr

/-- MetaVersion.empty (datetime.min becomes 0). -/
def MetaVersion.empty : MetaVersion :=
  { id := "", file_id := "", release_time := 0, sha1 := "", jars := [] }

/-- The per-download loop body of MetaVersion.update: skip names outside
JAR_NAMES, build the fresh MetaJar from the (already updated) version
header fields, insert it if absent or reconcile the existing record.
Raising propagates immediately, keeping the mutations so far. -/
def metaVersionJarsLoop (vid vfid : String) (rt : Int) :
    List (String × Download) → List (String × MetaJar) →
    List (String × MetaJar) × Option String
  | [], jars => (jars, none)
  | (download_name, download) :: rest, jars =>
    if JAR_NAMES.contains download_name then
      let meta_jar : MetaJar :=
        { version_id := vid, version_file_id := vfid, version_release_time := rt,
          key := download_name, sha1 := download.sha1, url := download.url }
      match dictLookup jars meta_jar.key with
      | none => metaVersionJarsLoop vid vfid rt rest (dictInsert jars meta_jar.key meta_jar)
      | some existing =>
        let r := existing.update meta_jar
        let jars' := dictInsert jars meta_jar.key r.state
        match r.error with
        | some e => (jars', some e)
        | none => metaVersionJarsLoop vid vfid rt rest jars'
    else
      metaVersionJarsLoop vid vfid rt rest jars

/-- MetaVersion.update: hash the descriptor file; if the hash matches the
stored one, a no-op (not dirty).  Otherwise overwrite the header fields,
reconcile each allow-listed download (iterated in sorted name order, as
Python sorted(...items())), sort the jars dict, and report dirty. -/
def MetaVersion.update (sha1fn : Bytes → String) (self : MetaVersion)
    (version_json : VersionJsonFile) : RecResult MetaVersion :=
  let version_json_sha1 := sha1fn version_json.bytes
  if self.sha1 = version_json_sha1 then
    ⟨self, none, false⟩
  else
    let self1 : MetaVersion :=
      { self with
          id := version_json.id
          file_id := version_json.stem
          release_time := version_json.releaseTime
          sha1 := version_json_sha1 }
    match metaVersionJarsLoop self1.id self1.file_id self1.release_time
        (sort_dict version_json.downloads) self1.jars with
    | (jars', some e) => ⟨{ self1 with jars := jars' }, some e, false⟩
    | (jars', none) => ⟨{ self1 with jars := sort_dict jars' }, none, true⟩

/-- meta.py Meta (pydantic model): the pulled commit hash and the list of
versions. -/
structure Meta where
  commit : String
  minecraft : List MetaVersion
deriving DecidableEq, Repr

/-- Meta.empty. -/
def Meta.empty : Meta := { commit := "", minecraft := [] }

/-- The find-existing-by-file_id / append-empty step of Meta.update for a
single descriptor file: update the first version whose file_id equals the
file stem, or append a fresh empty version (Python appends, then the held
reference is updated in place). -/
def metaUpdateFile (sha1fn : Bytes → String) (file : VersionJsonFile) :
    List MetaVersion → List MetaVersion × Option String × Bool
  | [] =>
    let r := MetaVersion.empty.update sha1fn file
    ([r.state], r.error, r.dirty)
  | v :: vs =>
    if v.file_id = file.stem then
      let r := v.update sha1fn file
      (r.state :: vs, r.error, r.dirty)
    else
      let q := metaUpdateFile sha1fn file vs
      (v :: q.1, q.2.1, q.2.2)

/-- The file loop of Meta.update, threading the version list and the
aggregated dirty flag; an exception aborts the loop. -/
def metaUpdateLoop (sha1fn : Bytes → String) :
    List VersionJsonFile → List MetaVersion → Bool →
    List MetaVersion × Option String × Bool
  | [], vs, dirty => (vs, none, dirty)
  | file :: files, vs, dirty =>
    let r := metaUpdateFile sha1fn file vs
    match r.2.1 with
    | some e => (r.1, some e, dirty || r.2.2)
    | none => metaUpdateLoop sha1fn files r.1 (dirty || r.2.2)

/-- Python self.minecraft.sort(key=release_time, reverse=True): a stable
sort by descending release time. -/
def sortVersionsDesc (vs : List MetaVersion) : List MetaVersion :=
  stableSort (fun a b => decide (b.release_time ≤ a.release_time)) vs

/-- Meta.update: iterate over the descriptor files (the sorted directory
listing is the files argument), reconcile each, and when dirty re-sort the
version list by descending release time. -/
def Meta.update (sha1fn : Bytes → String) (files : List VersionJsonFile)
    (self : Meta) : RecResult Meta :=
  match metaUpdateLoop sha1fn files self.minecraft false with
  | (vs, some e, _) => ⟨{ self with minecraft := vs }, some e, false⟩
  | (vs, none, dirty) =>
    if dirty then ⟨{ self with minecraft := sortVersionsDesc vs }, none, true⟩
    else ⟨{ self with minecraft := vs }, none, false⟩

/-- Meta.pull_and_update: the git pull is an external collaborator, so the
resulting head commit hash is a parameter.  Equal hash: cheap no-op.
Different hash: store it, run the full update, and report dirty even when
no record moved (an exception in update propagates). -/
def Meta.pull_and_update (sha1fn : Bytes → String) (latest_commit : String)
    (files : List VersionJsonFile) (self : Meta) : RecResult Meta :=
  if self.commit = latest_commit then
    ⟨self, none, false⟩
  else
    let r := Meta.update sha1fn files { self with commit := latest_commit }
    ⟨r.state, r.error, r.error.isNone⟩

/-! ## jars.py: data model and environment -/

/-- Python `del d[k]` / the disappearance of a renamed file. -/
def dictErase {K V : Type} [DecidableEq K] : List (K × V) → K → List (K × V)
  | [], _ => []
  | (k', v) :: rest, k => if k' = k then rest else (k', v) :: dictErase rest k

/-- Python str.split(sep) for a one-character separator, over the
character list of the string. -/
def splitCharAux (c : Char) : List Char → List (List Char)
  | [] => [[]]
  | a :: rest =>
    match splitCharAux c rest with
    | [] => [[]]
    | grp :: grps => if a = c then [] :: grp :: grps else (a :: grp) :: grps

/-- Python str.split(sep) for a one-character separator. -/
def splitOnChar (c : Char) (s : String) : List String :=
  (splitCharAux c s.data).map String.mk

/-- Python sep.join for a one-character separator. -/
def joinCharAux (c : Char) : List (List Char) → List Char
  | [] => []
  | [l] => l
  | l :: rest => l ++ c :: joinCharAux c rest

/-- Python sep.join for a one-character separator. -/
def joinChar (c : Char) (parts : List String) : String :=
  String.mk (joinCharAux c (parts.map String.data))

/-- Python str.splitlines restricted to newline separators: like a split
on the newline character but without a phantom final empty line. -/
def splitlines (s : String) : List String :=
  let p := splitOnChar (Char.ofNat 10) s
  if p.getLastD "" = "" then p.dropLast else p

/-- pathlib Path.with_suffix on paths of the form "mappings/NAME" (the
directory part contains no dot): drop the final dot-extension if any and
append the new suffix string. -/
def withSuffix (p sfx : String) : String :=
  match splitOnChar (Char.ofNat 46) p with
  | [_] => p ++ sfx
  | parts => joinChar (Char.ofNat 46) parts.dropLast ++ sfx

/-- The local file tree under the repository, path string to bytes. -/
abbrev FS := List (String × Bytes)

/-- Observable side effects of JarsJar.update, in order of occurrence. -/
inductive JarsEvent
  | download (url : String)
  | unwrap
  | convert
deriving DecidableEq, Repr

/-- The opaque collaborators of jars.py: content hashing, HTTP fetch,
zip-container parsing (none = not a zip archive), UTF-8 decoding
(none = decode error) and the mapping-io subprocess (its return code). -/
structure JarsEnv where
  sha1 : Bytes → String
  fetch : String → Bytes
  zip : Bytes → Option (List (String × Bytes))
  decodeUtf8 : Bytes → Option String
  convert : String → String → Int

/-- jars.py JarsJar (pydantic model). -/
structure JarsJar where
  version_id : String
  version_file_id : String
  version_release_time : Int
  jar_key : String
  jar_sha1_meta : String
  jar_sha1_local : String
  jar_filename : String
  map_filename : String
deriving DecidableEq, Repr

/-- JarsJar.jar_path: MAPPINGS_DIR / filename, relative to the repo dir. -/
def JarsJar.jar_path (self : JarsJar) : String := "mappings/" ++ self.jar_filename

/-- JarsJar.map_path. -/
def JarsJar.map_path (self : JarsJar) : String := "mappings/" ++ self.map_filename

/-- Result of JarsJar.update: the (possibly mutated) record, the file
tree, the emitted side effects, the raised exception if any, dirty. -/
structure JUpd where
  jar : JarsJar
  fs : FS
  evs : List JarsEvent
  error : Option String
  dirty : Bool
deriving DecidableEq, Repr

/-- The part of JarsJar.update after the download step (meta.py lines
87..117): inspect the archive at the canonical path as a zip container,
unwrap a single-entry bundle (rename the bundle aside, write the inner
bytes), run mapping-io, then record the new upstream hash and the local
file hash.  fs1/evs1 are the file tree and events after the download
step. -/
def jarsJarUpdateRest (env : JarsEnv) (self : JarsJar) (meta_jar : MetaJar)
    (fs1 : FS) (evs1 : List JarsEvent) : JUpd :=
  let jarP := self.jar_path
  let bundleP := withSuffix self.jar_path ".bundle.jar"
  match dictLookup fs1 jarP with
  | none => ⟨self, fs1, evs1, some "FileNotFoundError", false⟩
  | some jarBytes =>
    match env.zip jarBytes with
    | none => ⟨self, fs1, evs1, some "BadZipFile", false⟩
    | some jar_zip =>
      let unbundled : Except String (Option Bytes) :=
        if dictContains jar_zip "META-INF/versions.list" then
          match dictLookup jar_zip "META-INF/versions.list" with
          | none => Except.error "KeyError"
          | some vlBytes =>
            match env.decodeUtf8 vlBytes with
            | none => Except.error "UnicodeDecodeError"
            | some versions_list =>
              if 1 < (splitlines versions_list).length then
                Except.error
                  (jarP ++ " META-INF/versions.list contains more than one version")
              else
                let version_path := (splitOnChar (Char.ofNat 9) versions_list).getLastD ""
                match dictLookup jar_zip ("META-INF/versions/" ++ version_path) with
                | none => Except.error "KeyError"
                | some innerBytes => Except.ok (some innerBytes)
        else Except.ok none
      match unbundled with
      | Except.error e => ⟨self, fs1, evs1, some e, false⟩
      | Except.ok unbundled_jar_bytes =>
        -- Python: `if unbundled_jar_bytes:` is falsy for None and for b""
        let doUnwrap : Bool :=
          match unbundled_jar_bytes with
          | none => false
          | some ib => decide (ib ≠ [])
        let fs2 : FS :=
          match unbundled_jar_bytes with
          | none => fs1
          | some ib =>
            if ib = [] then fs1
            else dictInsert (dictInsert (dictErase fs1 jarP) bundleP jarBytes) jarP ib
        let evs2 := if doUnwrap then evs1 ++ [JarsEvent.unwrap] else evs1
        -- create java descriptions (mapping-io subprocess)
        let evs3 := evs2 ++ [JarsEvent.convert]
        if env.convert jarP self.map_path ≠ 0 then
          ⟨self, fs2, evs3, some "mapping-io-cli error", false⟩
        else
          -- update jar sha1s
          match dictLookup fs2 jarP with
          | none => ⟨self, fs2, evs3, some "FileNotFoundError", false⟩
          | some finalBytes =>
            ⟨{ self with
                 jar_sha1_meta := meta_jar.sha1
                 jar_sha1_local := env.sha1 finalBytes },
             fs2, evs3, none, true⟩

/-- JarsJar.update: skip unless the upstream hash changed; then download
when neither the canonical file nor the bundle-variant file matches the
upstream hash, and continue with the unwrap/convert/rehash sequence. -/
def JarsJar.update (env : JarsEnv) (self : JarsJar) (meta_jar : MetaJar)
    (fs : FS) : JUpd :=
  if meta_jar.sha1 = self.jar_sha1_meta then
    ⟨self, fs, [], none, false⟩
  else
    let jarP := self.jar_path
    let bundleP := withSuffix self.jar_path ".bundle.jar"
    -- download jar if necessary
    let needDownload : Bool :=
      match dictLookup fs jarP with
      | none => true
      | some jb =>
        decide (meta_jar.sha1 ≠ env.sha1 jb) &&
          (match dictLookup fs bundleP with
           | none => true
           | some bb => decide (meta_jar.sha1 ≠ env.sha1 bb))
    let fs1 : FS :=
      if needDownload then dictInsert fs jarP (env.fetch meta_jar.url) else fs
    let evs1 : List JarsEvent :=
      if needDownload then [JarsEvent.download meta_jar.url] else []
    jarsJarUpdateRest env self meta_jar fs1 evs1

/-- JarsJar.from_meta_jar: construct the record with empty hashes and run
update on it immediately (the caller discards the returned dirty flag). -/
def JarsJar.from_meta_jar (env : JarsEnv) (meta_jar : MetaJar) (fs : FS) : JUpd :=
  let self : JarsJar :=
    { version_id := meta_jar.version_id
      version_file_id := meta_jar.version_file_id
      version_release_time := meta_jar.version_release_time
      jar_key := meta_jar.key
      jar_sha1_meta := ""
      jar_sha1_local := ""
      jar_filename := meta_jar.filename "jar"
      map_filename := meta_jar.filename "tiny" }
  self.update env meta_jar fs

/-- jars.py Jars (pydantic model): version id to jar key to record. -/
structure Jars where
  versions : List (String × List (String × JarsJar))
deriving DecidableEq, Repr

/-- Jars.empty. -/
def Jars.empty : Jars := { versions := [] }

/-- Jars.all: itertools.chain over the inner dict values, in order. -/
def jarsAll (versions : List (String × List (String × JarsJar))) : List JarsJar :=
  (versions.map (fun kv => kv.2.map Prod.snd)).flatten

/-- Jars.get_version_release_time: linear scan of all records of the
store itself, matching the version id or the version file id; raises when
no record matches. -/
def Jars.get_version_release_time (self : Jars) (version : String) :
    Except String Int :=
  match (jarsAll self.versions).find?
      (fun jar => version == jar.version_id || version == jar.version_file_id) with
  | some jar => Except.ok jar.version_release_time
  | none => Except.error ("Jars.get_version_release_time not found " ++ version)

/-- Python sorted(d.items(), key=f, reverse=True) where f may raise:
compute all keys first in iteration order (CPython decorates before it
compares), then stable-sort descending and strip the decoration. -/
def decorateByTime {V : Type} (timeOf : String → Except String Int) :
    List (String × V) → Except String (List (Int × String × V))
  | [] => Except.ok []
  | (k, v) :: rest =>
    match timeOf k with
    | Except.error e => Except.error e
    | Except.ok t =>
      match decorateByTime timeOf rest with
      | Except.error e => Except.error e
      | Except.ok ds => Except.ok ((t, k, v) :: ds)

/-- util.sort_dict with key=release-time lookup and reverse=True. -/
def sortOuterByTimeDesc {V : Type} (timeOf : String → Except String Int)
    (d : List (String × V)) : Except String (List (String × V)) :=
  match decorateByTime timeOf d with
  | Except.error e => Except.error e
  | Except.ok ds =>
    Except.ok ((stableSort (fun a b => decide (b.1 ≤ a.1)) ds).map
      (fun t => (t.2.1, t.2.2)))

/-- Result of Jars.update. -/
structure JarsUpd where
  jars : Jars
  fs : FS
  evs : List JarsEvent
  error : Option String
  dirty : Bool
deriving DecidableEq, Repr

/-- The inner (per-jar) loop of Jars.update over one meta version's jars:
create missing records (from_meta_jar, then continue without sorting) or
reconcile existing ones, re-sorting the inner dict after each dirtying
record update.  An exception keeps the mutations made so far; a raised
from_meta_jar skips the dict assignment (the exception fires before it). -/
def jarsJLoop (env : JarsEnv) :
    List (String × MetaJar) → List (String × JarsJar) → FS → List JarsEvent →
    Bool → List (String × JarsJar) × FS × List JarsEvent × Option String × Bool
  | [], inner, fs, evs, dirty => (inner, fs, evs, none, dirty)
  | (jar_name, meta_jar) :: rest, inner, fs, evs, dirty =>
    match dictLookup inner jar_name with
    | none =>
      let r := JarsJar.from_meta_jar env meta_jar fs
      match r.error with
      | some e => (inner, r.fs, evs ++ r.evs, some e, dirty)
      | none =>
        jarsJLoop env rest (dictInsert inner jar_name r.jar) r.fs (evs ++ r.evs) true
    | some record =>
      let r := record.update env meta_jar fs
      let inner1 := dictInsert inner jar_name r.jar
      match r.error with
      | some e => (inner1, r.fs, evs ++ r.evs, some e, dirty)
      | none =>
        if r.dirty then
          jarsJLoop env rest (sort_dict inner1) r.fs (evs ++ r.evs) true
        else
          jarsJLoop env rest inner1 r.fs (evs ++ r.evs) dirty

/-- The outer (per-version) loop of Jars.update, iterating versions in the
given order (Jars.update passes reversed(meta.minecraft)): initialise the
version's inner dict when missing (dirty), then run the jar loop. -/
def jarsVLoop (env : JarsEnv) :
    List MetaVersion → List (String × List (String × JarsJar)) → FS →
    List JarsEvent → Bool →
    List (String × List (String × JarsJar)) × FS × List JarsEvent ×
      Option String × Bool
  | [], versions, fs, evs, dirty => (versions, fs, evs, none, dirty)
  | mc_version :: rest, versions, fs, evs, dirty =>
    let initStep :
        List (String × List (String × JarsJar)) × Bool :=
      if dictContains versions mc_version.id then (versions, dirty)
      else (dictInsert versions mc_version.id [], true)
    let versions1 := initStep.1
    let inner0 := (dictLookup versions1 mc_version.id).getD []
    match jarsJLoop env mc_version.jars inner0 fs evs initStep.2 with
    | (inner, fs', evs', some e, _) =>
      (dictInsert versions1 mc_version.id inner, fs', evs', some e, initStep.2)
    | (inner, fs', evs', none, dirty') =>
      jarsVLoop env rest (dictInsert versions1 mc_version.id inner) fs' evs' dirty'

/-- Jars.update: iterate over reversed(meta.minecraft) (meta is what
Meta.load() returns, a parameter here), then when dirty re-sort the outer
dict by descending release time, looking the time up in the store's own
records (Jars.get_version_release_time), which may raise. -/
def Jars.update (env : JarsEnv) (meta : Meta) (self : Jars) (fs : FS) : JarsUpd :=
  match jarsVLoop env meta.minecraft.reverse self.versions fs [] false with
  | (versions, fs', evs, some e, _) => ⟨⟨versions⟩, fs', evs, some e, false⟩
  | (versions, fs', evs, none, dirty) =>
    if dirty then
      match sortOuterByTimeDesc (Jars.get_version_release_time ⟨versions⟩) versions with
      | Except.error e => ⟨⟨versions⟩, fs', evs, some e, false⟩
      | Except.ok versions' => ⟨⟨versions'⟩, fs', evs, none, true⟩
    else ⟨⟨versions⟩, fs', evs, none, false⟩

/-! ## index.py: data model -/

/-- index.py BASE_URL. -/
def BASE_URL : String := "https://jackassmc.github.io/minecraft-jars-java-descriptions"

/-- index.py IndexMapping (pydantic model). -/
structure IndexMapping where
  version_id : String
  version_file_id : String
  version_release_time : Int
  jar_key : String
  jar_sha1_meta : String
  path : String
  url : String
deriving DecidableEq, Repr

/-- IndexMapping.from_jar. -/
def IndexMapping.from_jar (jar : JarsJar) : IndexMapping :=
  { version_id := jar.version_id
    version_file_id := jar.version_file_id
    version_release_time := jar.version_release_time
    jar_key := jar.jar_key
    jar_sha1_meta := jar.jar_sha1_meta
    path := jar.map_path
    url := BASE_URL ++ "/" ++ jar.map_path }

/-- IndexMapping.update: assert the four identity fields (before any
mutation), then mirror hash, path and derived url, reporting dirty. -/
def IndexMapping.update (self : IndexMapping) (jar : JarsJar) :
    RecResult IndexMapping :=
  if self.version_id ≠ jar.version_id then
    ⟨self, some "IndexMapping.update mismatch version_id", false⟩
  else if self.version_file_id ≠ jar.version_file_id then
    ⟨self, some "IndexMapping.update mismatch version_file_id", false⟩
  else if self.version_release_time ≠ jar.version_release_time then
    ⟨self, some "IndexMapping.update mismatch version_release_time", false⟩
  else if self.jar_key ≠ jar.jar_key then
    ⟨self, some "IndexMapping.update mismatch jar_key", false⟩
  else
    let s1 : IndexMapping × Bool :=
      if self.jar_sha1_meta ≠ jar.jar_sha1_meta then
        ({ self with jar_sha1_meta := jar.jar_sha1_meta }, true)
      else (self, false)
    let s2 : IndexMapping × Bool :=
      if s1.1.path ≠ jar.map_path then ({ s1.1 with path := jar.map_path }, true)
      else (s1.1, s1.2)
    let url := BASE_URL ++ "/" ++ jar.map_path
    let s3 : IndexMapping × Bool :=
      if s2.1.url ≠ url then ({ s2.1 with url := url }, true) else (s2.1, s2.2)
    ⟨s3.1, none, s3.2⟩

/-- index.py Index (pydantic model): save timestamp and nested mappings. -/
structure Index where
  timestamp : Int
  mappings : List (String × List (String × IndexMapping))
deriving DecidableEq, Repr

/-- Index.get_version_release_time: like the Jars one, over mappings. -/
def indexGetVersionReleaseTime
    (mappings : List (String × List (String × IndexMapping))) (version : String) :
    Except String Int :=
  match ((mappings.map (fun kv => kv.2.map Prod.snd)).flatten).find?
      (fun m => version == m.version_id || version == m.version_file_id) with
  | some m => Except.ok m.version_release_time
  | none => Except.error ("Index.get_version_release_time not found " ++ version)

/-- The per-jar loop of Index.update over Jars.load(...).all: initialise
the version dict when missing (without setting dirty), create missing
records (dirty), or reconcile existing ones, re-sorting the inner dict
after each dirtying record update. -/
def indexLoop :
    List JarsJar → List (String × List (String × IndexMapping)) → Bool →
    List (String × List (String × IndexMapping)) × Option String × Bool
  | [], mappings, dirty => (mappings, none, dirty)
  | jar :: rest, mappings, dirty =>
    let mappings1 :=
      if dictContains mappings jar.version_id then mappings
      else dictInsert mappings jar.version_id []
    let inner0 := (dictLookup mappings1 jar.version_id).getD []
    match dictLookup inner0 jar.jar_key with
    | none =>
      indexLoop rest
        (dictInsert mappings1 jar.version_id
          (dictInsert inner0 jar.jar_key (IndexMapping.from_jar jar))) true
    | some existing =>
      let r := existing.update jar
      let inner1 := dictInsert inner0 jar.jar_key r.state
      let mappings2 := dictInsert mappings1 jar.version_id inner1
      match r.error with
      | some e => (mappings2, some e, dirty)
      | none =>
        if r.dirty then
          indexLoop rest (dictInsert mappings2 jar.version_id (sort_dict inner1)) true
        else
          indexLoop rest mappings2 dirty

/-- Index.update: reconcile one IndexMapping per record of the jars
snapshot; when dirty, re-sort the outer dict by descending release time
(looked up in the index's own mappings). -/
def Index.update (jars : Jars) (self : Index) : RecResult Index :=
  match indexLoop (jarsAll jars.versions) self.mappings false with
  | (mappings, some e, _) => ⟨{ self with mappings := mappings }, some e, false⟩
  | (mappings, none, dirty) =>
    if dirty then
      match sortOuterByTimeDesc (indexGetVersionReleaseTime mappings) mappings with
      | Except.error e => ⟨{ self with mappings := mappings }, some e, false⟩
      | Except.ok mappings' => ⟨{ self with mappings := mappings' }, none, true⟩
    else ⟨{ self with mappings := mappings }, none, false⟩

/-! ## Dictionary lemmas -/

theorem dictLookup_insert_self {K V : Type} [DecidableEq K] (d : List (K × V))
    (k : K) (v : V) : dictLookup (dictInsert d k v) k = some v := by
  induction d with
  | nil => simp [dictInsert, dictLookup]
  | cons hd tl ih =>
    obtain ⟨k', v'⟩ := hd
    by_cases h : k' = k
    · simp [dictInsert, dictLookup, h]
    · simp [dictInsert, dictLookup, h, ih]

theorem dictLookup_insert_ne {K V : Type} [DecidableEq K] (d : List (K × V))
    (k k' : K) (v : V) (h : k' ≠ k) :
    dictLookup (dictInsert d k v) k' = dictLookup d k' := by
  have h' : k ≠ k' := Ne.symm h
  induction d with
  | nil => simp [dictInsert, dictLookup, h']
  | cons hd tl ih =>
    obtain ⟨k0, v0⟩ := hd
    by_cases h0 : k0 = k
    · subst h0
      simp [dictInsert, dictLookup, h']
    · simp only [dictInsert, if_neg h0, dictLookup]
      rw [ih]

theorem dictInsert_lookup_eq {K V : Type} [DecidableEq K] (d : List (K × V))
    (k : K) (v : V) (h : dictLookup d k = some v) : dictInsert d k v = d := by
  induction d with
  | nil => simp [dictLookup] at h
  | cons hd tl ih =>
    obtain ⟨k0, v0⟩ := hd
    by_cases h0 : k0 = k
    · simp only [dictLookup, if_pos h0] at h
      cases h
      simp [dictInsert, h0]
    · simp only [dictLookup, if_neg h0] at h
      simp [dictInsert, h0, ih h]

theorem mem_dictInsert {K V : Type} [DecidableEq K] (d : List (K × V)) (k : K)
    (v : V) (x : K × V) (hx : x ∈ dictInsert d k v) : x ∈ d ∨ x = (k, v) := by
  induction d with
  | nil =>
    simp only [dictInsert, List.mem_singleton] at hx
    right; exact hx
  | cons hd tl ih =>
    obtain ⟨k0, v0⟩ := hd
    by_cases h0 : k0 = k
    · simp only [dictInsert, if_pos h0] at hx
      rcases List.mem_cons.1 hx with h1 | h1
      · right; rw [h1, h0]
      · left; exact List.mem_cons_of_mem _ h1
    · simp only [dictInsert, if_neg h0] at hx
      rcases List.mem_cons.1 hx with h1 | h1
      · left; rw [h1]; exact List.mem_cons_self _ _
      · rcases ih h1 with h2 | h2
        · left; exact List.mem_cons_of_mem _ h2
        · right; exact h2

theorem dictLookup_eq_find? {K V : Type} [DecidableEq K] (d : List (K × V))
    (k : K) :
    dictLookup d k = (d.find? (fun p => decide (p.1 = k))).map Prod.snd := by
  induction d with
  | nil => simp [dictLookup]
  | cons hd tl ih =>
    obtain ⟨k0, v0⟩ := hd
    by_cases h0 : k0 = k
    · simp [dictLookup, h0, List.find?]
    · simp [dictLookup, h0, List.find?, ih]

theorem find?_eq_head?_filter {α : Type} (p : α → Bool) (l : List α) :
    l.find? p = (l.filter p).head? := by
  induction l with
  | nil => simp
  | cons a l ih =>
    by_cases h : p a
    · simp [List.find?, List.filter, h]
    · rw [List.find?_cons_of_neg _ (by simp [h]), List.filter_cons_of_neg (by simp [h])]
      exact ih

theorem filter_length_le_one_of_nodup_keys {K V : Type} [DecidableEq K]
    (d : List (K × V)) (k : K) (h : (dictKeys d).Nodup) :
    (d.filter (fun p => decide (p.1 = k))).length ≤ 1 := by
  induction d with
  | nil => simp
  | cons hd tl ih =>
    obtain ⟨k0, v0⟩ := hd
    simp only [dictKeys, List.map_cons, List.nodup_cons] at h
    by_cases h0 : k0 = k
    · subst h0
      have hnil : tl.filter (fun p => decide (p.1 = k0)) = [] := by
        rw [List.filter_eq_nil_iff]
        intro p hp hq
        have hk : p.1 = k0 := of_decide_eq_true hq
        exact h.1 (hk ▸ List.mem_map_of_mem Prod.fst hp)
      simp [List.filter, hnil]
    · simp only [List.filter]
      have hd0 : (decide ((k0, v0).1 = k)) = false := by simp [h0]
      rw [hd0]
      exact ih h.2

theorem find?_eq_of_perm_of_unique {α : Type} (p : α → Bool) (l l' : List α)
    (hp : l.Perm l') (h : (l.filter p).length ≤ 1) :
    l'.find? p = l.find? p := by
  rw [find?_eq_head?_filter, find?_eq_head?_filter]
  have hperm : (l'.filter p).Perm (l.filter p) := (hp.filter p).symm
  match hl : l.filter p with
  | [] =>
    have : l'.filter p = [] := List.Perm.eq_nil (hl ▸ hperm)
    simp [this]
  | [a] =>
    have : l'.filter p = [a] := List.perm_singleton.1 (hl ▸ hperm)
    simp [this]
  | a :: b :: rest =>
    rw [hl] at h
    simp at h

theorem dictLookup_eq_of_perm {K V : Type} [DecidableEq K]
    (d d' : List (K × V)) (hp : d.Perm d') (h : (dictKeys d).Nodup) (k : K) :
    dictLookup d' k = dictLookup d k := by
  rw [dictLookup_eq_find?, dictLookup_eq_find?,
    find?_eq_of_perm_of_unique _ d d' hp (filter_length_le_one_of_nodup_keys d k h)]

theorem dictKeys_nodup_insert {K V : Type} [DecidableEq K] (d : List (K × V))
    (k : K) (v : V) (h : (dictKeys d).Nodup) :
    (dictKeys (dictInsert d k v)).Nodup := by
  induction d with
  | nil => simp [dictInsert, dictKeys]
  | cons hd tl ih =>
    obtain ⟨k0, v0⟩ := hd
    simp only [dictKeys, List.map_cons, List.nodup_cons] at h
    by_cases h0 : k0 = k
    · simp only [dictInsert, if_pos h0, dictKeys, List.map_cons, List.nodup_cons]
      exact h
    · simp only [dictInsert, if_neg h0, dictKeys, List.map_cons, List.nodup_cons]
      constructor
      · intro hmem
        rcases List.mem_map.1 hmem with ⟨⟨ka, va⟩, hmem2, hka⟩
        simp only at hka
        rcases mem_dictInsert tl k v _ hmem2 with hin | heq
        · exact h.1 (hka ▸ List.mem_map_of_mem Prod.fst hin)
        · have hk : ka = k := by
            have := congrArg Prod.fst heq
            simpa using this
          exact h0 (by rw [← hka]; exact hk)
      · exact ih h.2

/-! ## Claim C2: the MetaVersion.update hash gate -/

/-- Claim C2: for every MetaVersion and descriptor file, MetaVersion.update
returns not-dirty and leaves every field (including the jars map)
unchanged when the file's content hash equals the stored sha1; and
whenever the hash differs and the call returns normally, it returns dirty,
even if no per-jar field actually changed. -/
theorem C2_metaVersion_update_hash_gate (sha1fn : Bytes → String)
    (v : MetaVersion) (f : VersionJsonFile) :
    (v.sha1 = sha1fn f.bytes → MetaVersion.update sha1fn v f = ⟨v, none, false⟩) ∧
    (v.sha1 ≠ sha1fn f.bytes → ∀ r, MetaVersion.update sha1fn v f = r →
      r.error = none → r.dirty = true) := by
  constructor
  · intro h
    simp only [MetaVersion.update]
    rw [if_pos h]
  · intro h r hr he
    simp only [MetaVersion.update] at hr
    rw [if_neg h] at hr
    split at hr
    · rw [← hr] at he
      simp at he
    · rw [← hr]

def c2fnEq : Bytes → String := fun _ => "HASH"

def c2fnNe : Bytes → String := fun _ => "OTHER"

def c2v : MetaVersion :=
  { id := "1.0", file_id := "f", release_time := 3, sha1 := "HASH", jars := [] }

def c2f : VersionJsonFile :=
  { stem := "f", bytes := [], id := "1.0", releaseTime := 3, downloads := [] }

/-- Witness for C2 at concrete inputs: a matching hash skips, a differing
hash (with zero download entries, so no per-jar field moves) is dirty. -/
theorem C2_witness :
    MetaVersion.update c2fnEq c2v c2f = ⟨c2v, none, false⟩ ∧
    (MetaVersion.update c2fnNe c2v c2f).dirty = true :=
  ⟨(C2_metaVersion_update_hash_gate c2fnEq c2v c2f).1 rfl,
   (C2_metaVersion_update_hash_gate c2fnNe c2v c2f).2 (by decide) _ rfl (by decide)⟩

/-! ## Claim C9: Meta.pull_and_update commit gate -/

theorem meta_update_commit (sha1fn : Bytes → String)
    (files : List VersionJsonFile) (m : Meta) :
    (Meta.update sha1fn files m).state.commit = m.commit := by
  simp only [Meta.update]
  split
  · rfl
  · split <;> rfl

/-- Claim C9: Meta.pull_and_update with an unchanged commit hash returns
not-dirty and leaves the commit hash and all version records unchanged;
with a changed hash it stores the new hash, runs the full Meta.update over
the descriptor files, and (when that returns normally) reports dirty
regardless of whether any record changed. -/
theorem C9_pull_and_update_gate (sha1fn : Bytes → String) (latest : String)
    (files : List VersionJsonFile) (self : Meta) :
    (self.commit = latest →
      Meta.pull_and_update sha1fn latest files self = ⟨self, none, false⟩) ∧
    (self.commit ≠ latest →
      Meta.pull_and_update sha1fn latest files self =
        ⟨(Meta.update sha1fn files { self with commit := latest }).state,
         (Meta.update sha1fn files { self with commit := latest }).error,
         (Meta.update sha1fn files { self with commit := latest }).error.isNone⟩ ∧
      (Meta.pull_and_update sha1fn latest files self).state.commit = latest ∧
      ((Meta.update sha1fn files { self with commit := latest }).error = none →
        (Meta.pull_and_update sha1fn latest files self).dirty = true)) := by
  constructor
  · intro h
    simp only [Meta.pull_and_update]
    rw [if_pos h]
  · intro h
    refine ⟨?_, ?_, ?_⟩
    · simp only [Meta.pull_and_update]
      rw [if_neg h]
    · simp only [Meta.pull_and_update]
      rw [if_neg h]
      simp [meta_update_commit]
    · intro he
      simp only [Meta.pull_and_update]
      rw [if_neg h]
      simp [he]

def c9meta : Meta := { commit := "abc", minecraft := [] }

/-- Witness for C9 at concrete inputs: matching commit hash is a no-op;
a differing commit hash is dirty even though zero records moved. -/
theorem C9_witness :
    Meta.pull_and_update c2fnEq "abc" [] c9meta = ⟨c9meta, none, false⟩ ∧
    (Meta.pull_and_update c2fnEq "xyz" [] c9meta).dirty = true :=
  ⟨(C9_pull_and_update_gate c2fnEq "abc" [] c9meta).1 rfl,
   ((C9_pull_and_update_gate c2fnEq "xyz" [] c9meta).2 (by decide)).2.2 rfl⟩

/-! ## Claim C10: a version with no allow-listed jars aborts Jars.update -/

def c10meta : Meta :=
  { commit := "c"
    minecraft := [{ id := "1.0", file_id := "f1", release_time := 5,
                    sha1 := "s", jars := [] }] }

def c10env : JarsEnv :=
  { sha1 := fun _ => "H"
    fetch := fun _ => []
    zip := fun _ => some []
    decodeUtf8 := fun _ => some ""
    convert := fun _ _ => 0 }

/-- Claim C10: on a Meta snapshot holding a version with an empty jars map
whose id is not yet in the store, Jars.update creates the empty inner map,
is dirty, and the final release-time sort raises the not-found error from
Jars.get_version_release_time, so the run aborts with that exception
instead of returning. -/
theorem C10_empty_version_aborts :
    (Jars.update c10env c10meta Jars.empty []).error =
      some "Jars.get_version_release_time not found 1.0" ∧
    (Jars.update c10env c10meta Jars.empty []).jars.versions = [("1.0", [])] :=
  ⟨rfl, rfl⟩

/-! ## Stable sort lemmas -/

theorem insertOrdered_perm {α : Type} (le : α → α → Bool) (a : α) (l : List α) :
    (insertOrdered le a l).Perm (a :: l) := by
  induction l with
  | nil => simp [insertOrdered]
  | cons b l ih =>
    by_cases h : le a b
    · simp [insertOrdered, h]
    · simp only [insertOrdered, h, Bool.false_eq_true, if_false]
      exact (List.Perm.cons b ih).trans (List.Perm.swap a b l)

theorem stableSort_perm {α : Type} (le : α → α → Bool) (l : List α) :
    (stableSort le l).Perm l := by
  induction l with
  | nil => simp [stableSort]
  | cons a l ih =>
    exact (insertOrdered_perm le a (stableSort le l)).trans (List.Perm.cons a ih)

theorem mem_insertOrdered {α : Type} (le : α → α → Bool) (a : α) (l : List α)
    (x : α) (hx : x ∈ insertOrdered le a l) : x = a ∨ x ∈ l :=
  List.mem_cons.1 ((insertOrdered_perm le a l).mem_iff.1 hx)

theorem insertOrdered_pairwise {α : Type} (le : α → α → Bool)
    (htrans : ∀ a b c, le a b = true → le b c = true → le a c = true)
    (htotal : ∀ a b, le a b = true ∨ le b a = true) (a : α) (l : List α)
    (hl : List.Pairwise (fun x y => le x y = true) l) :
    List.Pairwise (fun x y => le x y = true) (insertOrdered le a l) := by
  induction l with
  | nil => simp [insertOrdered]
  | cons b l ih =>
    rcases List.pairwise_cons.1 hl with ⟨hb, hl'⟩
    by_cases h : le a b
    · simp only [insertOrdered, h, if_true]
      refine List.pairwise_cons.2 ⟨?_, hl⟩
      intro c hc
      rcases List.mem_cons.1 hc with hc | hc
      · rw [hc]; exact h
      · exact htrans a b c h (hb c hc)
    · simp only [insertOrdered, h, Bool.false_eq_true, if_false]
      refine List.pairwise_cons.2 ⟨?_, ih hl'⟩
      intro c hc
      rcases mem_insertOrdered le a l c hc with hc | hc
      · rw [hc]
        rcases htotal a b with h1 | h1
        · exact absurd h1 h
        · exact h1
      · exact hb c hc

theorem stableSort_pairwise {α : Type} (le : α → α → Bool)
    (htrans : ∀ a b c, le a b = true → le b c = true → le a c = true)
    (htotal : ∀ a b, le a b = true ∨ le b a = true) (l : List α) :
    List.Pairwise (fun x y => le x y = true) (stableSort le l) := by
  induction l with
  | nil => simp [stableSort]
  | cons a l ih => exact insertOrdered_pairwise le htrans htotal a (stableSort le l) ih

theorem sort_dict_perm {V : Type} (d : List (String × V)) :
    (sort_dict d).Perm d := stableSort_perm _ d

theorem sort_dict_lookup {V : Type} (d : List (String × V))
    (h : (dictKeys d).Nodup) (k : String) :
    dictLookup (sort_dict d) k = dictLookup d k :=
  dictLookup_eq_of_perm d (sort_dict d) (sort_dict_perm d).symm h k

theorem sort_dict_keys_nodup {V : Type} (d : List (String × V))
    (h : (dictKeys d).Nodup) : (dictKeys (sort_dict d)).Nodup := by
  have hp : (dictKeys (sort_dict d)).Perm (dictKeys d) := (sort_dict_perm d).map Prod.fst
  exact hp.nodup_iff.2 h

/-! ## Claim C3: identity-mismatch behaviour of the record reconciles -/

def c3jar : JarsJar :=
  { version_id := "A", version_file_id := "fa", version_release_time := 1,
    jar_key := "client", jar_sha1_meta := "S", jar_sha1_local := "S",
    jar_filename := "A-client.jar", map_filename := "A-client.tiny" }

def c3meta : MetaJar :=
  { version_id := "B", version_file_id := "fb", version_release_time := 2,
    key := "server", sha1 := "S", url := "u" }

/-- Claim C3 counterexample: JarsJar.update performs no identity check.
Here every identity field of the incoming MetaJar differs from the record
(version id, version-file id, release time, key), yet the call raises
nothing and silently returns the record unchanged and not-dirty, because
the upstream hash matches; the claim that every record-level reconcile
(including JarsJar.update) raises an identity-mismatch error is false. -/
theorem C3_counterexample :
    c3jar.version_id ≠ c3meta.version_id ∧
    c3jar.version_file_id ≠ c3meta.version_file_id ∧
    c3jar.version_release_time ≠ c3meta.version_release_time ∧
    c3jar.jar_key ≠ c3meta.key ∧
    JarsJar.update c10env c3jar c3meta [] = ⟨c3jar, [], [], none, false⟩ := by
  exact ⟨by decide, by decide, by decide, by decide, by decide⟩

/-- Claim C3 (amended): MetaJar.update_kwargs and IndexMapping.update
raise an identity-mismatch exception, stay not-dirty, and leave every
field of the record unchanged (identity checks precede all mutation)
whenever any of the four identity fields differs; JarsJar.update however
performs no identity check at all: with a matching upstream hash it
returns unchanged, not-dirty and exception-free regardless of the
identity fields. -/
theorem C3_amended_identity_mismatch :
    (∀ (j : MetaJar) (vid vfid : String) (rt : Int) (k s u : String),
      (j.version_id ≠ vid ∨ j.version_file_id ≠ vfid ∨
        j.version_release_time ≠ rt ∨ j.key ≠ k) →
      (j.update_kwargs vid vfid rt k s u).error.isSome = true ∧
      (j.update_kwargs vid vfid rt k s u).state = j ∧
      (j.update_kwargs vid vfid rt k s u).dirty = false) ∧
    (∀ (m : IndexMapping) (jar : JarsJar),
      (m.version_id ≠ jar.version_id ∨ m.version_file_id ≠ jar.version_file_id ∨
        m.version_release_time ≠ jar.version_release_time ∨
        m.jar_key ≠ jar.jar_key) →
      (m.update jar).error.isSome = true ∧ (m.update jar).state = m ∧
      (m.update jar).dirty = false) ∧
    (∀ (env : JarsEnv) (j : JarsJar) (m : MetaJar) (fs : FS),
      m.sha1 = j.jar_sha1_meta →
      JarsJar.update env j m fs = ⟨j, fs, [], none, false⟩) := by
  refine ⟨?_, ?_, ?_⟩
  · intro j vid vfid rt k s u h
    simp only [MetaJar.update_kwargs]
    by_cases h1 : j.version_id ≠ vid
    · rw [if_pos h1]; exact ⟨rfl, rfl, rfl⟩
    · rw [if_neg h1]
      by_cases h2 : j.version_file_id ≠ vfid
      · rw [if_pos h2]; exact ⟨rfl, rfl, rfl⟩
      · rw [if_neg h2]
        by_cases h3 : j.version_release_time ≠ rt
        · rw [if_pos h3]; exact ⟨rfl, rfl, rfl⟩
        · rw [if_neg h3]
          by_cases h4 : j.key ≠ k
          · rw [if_pos h4]; exact ⟨rfl, rfl, rfl⟩
          · exfalso
            rcases h with h | h | h | h
            · exact h1 h
            · exact h2 h
            · exact h3 h
            · exact h4 h
  · intro m jar h
    simp only [IndexMapping.update]
    by_cases h1 : m.version_id ≠ jar.version_id
    · rw [if_pos h1]; exact ⟨rfl, rfl, rfl⟩
    · rw [if_neg h1]
      by_cases h2 : m.version_file_id ≠ jar.version_file_id
      · rw [if_pos h2]; exact ⟨rfl, rfl, rfl⟩
      · rw [if_neg h2]
        by_cases h3 : m.version_release_time ≠ jar.version_release_time
        · rw [if_pos h3]; exact ⟨rfl, rfl, rfl⟩
        · rw [if_neg h3]
          by_cases h4 : m.jar_key ≠ jar.jar_key
          · rw [if_pos h4]; exact ⟨rfl, rfl, rfl⟩
          · exfalso
            rcases h with h | h | h | h
            · exact h1 h
            · exact h2 h
            · exact h3 h
            · exact h4 h
  · intro env j m fs h
    simp only [JarsJar.update]
    rw [if_pos h]

def c3im : IndexMapping :=
  { version_id := "A", version_file_id := "fa", version_release_time := 1,
    jar_key := "client", jar_sha1_meta := "S", path := "p", url := "u" }

def c3jarB : JarsJar := { c3jar with version_id := "B" }

def c3mj : MetaJar :=
  { version_id := "A", version_file_id := "fa", version_release_time := 1,
    key := "client", sha1 := "S", url := "u" }

/-- Witness for the amended C3 at concrete inputs. -/
theorem C3_witness :
    (c3mj.update_kwargs "B" "fa" 1 "client" "S" "u").state = c3mj ∧
    (c3im.update c3jarB).state = c3im ∧
    JarsJar.update c10env c3jar c3meta [] = ⟨c3jar, [], [], none, false⟩ :=
  ⟨(C3_amended_identity_mismatch.1 c3mj "B" "fa" 1 "client" "S" "u"
      (Or.inl (by decide))).2.1,
   (C3_amended_identity_mismatch.2.1 c3im c3jarB (Or.inl (by decide))).2.1,
   C3_amended_identity_mismatch.2.2 c10env c3jar c3meta [] (by decide)⟩

/-! ## Claim C4: when JarsJar.update downloads -/

theorem download_mem_rest (env : JarsEnv) (self : JarsJar) (m : MetaJar)
    (fs1 : FS) (evs1 : List JarsEvent) (u : String) :
    (JarsEvent.download u ∈ (jarsJarUpdateRest env self m fs1 evs1).evs) ↔
      JarsEvent.download u ∈ evs1 := by
  simp only [jarsJarUpdateRest]
  repeat' split
  all_goals simp

/-- Claim C4 (amended): in JarsJar.update with a changed upstream hash,
bytes are fetched from the meta url and written to the canonical path if
and only if the canonical jar file is missing, or it holds content whose
SHA-1 differs from the upstream hash while the bundle-variant file is
missing or holds content whose SHA-1 differs.  (The bundle-variant file is
only consulted when the canonical file exists with a wrong hash; a missing
canonical file triggers a download unconditionally.) -/
theorem C4_amended_download_condition (env : JarsEnv) (r : JarsJar)
    (m : MetaJar) (fs : FS) (h : m.sha1 ≠ r.jar_sha1_meta) :
    (JarsEvent.download m.url ∈ (JarsJar.update env r m fs).evs) ↔
      (dictLookup fs r.jar_path = none ∨
        ∃ jb, dictLookup fs r.jar_path = some jb ∧ m.sha1 ≠ env.sha1 jb ∧
          (dictLookup fs (withSuffix r.jar_path ".bundle.jar") = none ∨
            ∃ bb, dictLookup fs (withSuffix r.jar_path ".bundle.jar") = some bb ∧
              m.sha1 ≠ env.sha1 bb)) := by
  simp only [JarsJar.update]
  rw [if_neg h]
  rw [download_mem_rest]
  rcases hjb : dictLookup fs r.jar_path with _ | jb
  · simp [hjb]
  · rcases hbb : dictLookup fs (withSuffix r.jar_path ".bundle.jar") with _ | bb
    · by_cases hs : m.sha1 = env.sha1 jb
      · simp [hjb, hbb, hs]
      · simp [hjb, hbb, hs]
    · by_cases hs : m.sha1 = env.sha1 jb
      · simp [hjb, hbb, hs]
      · by_cases hs2 : m.sha1 = env.sha1 bb
        · simp [hjb, hbb, hs, hs2]
        · simp [hjb, hbb, hs, hs2]

def c4jar : JarsJar :=
  { version_id := "A", version_file_id := "fa", version_release_time := 1,
    jar_key := "client", jar_sha1_meta := "OLD", jar_sha1_local := "OLD",
    jar_filename := "A-client.jar", map_filename := "A-client.tiny" }

def c4meta : MetaJar :=
  { version_id := "A", version_file_id := "fa", version_release_time := 1,
    key := "client", sha1 := "NEW", url := "u4" }

def c4fs : FS := [("mappings/A-client.bundle.jar", [1, 2])]

def c4env : JarsEnv :=
  { sha1 := fun b => if b = [1, 2] then "NEW" else "OTHER"
    fetch := fun _ => [9]
    zip := fun _ => some []
    decodeUtf8 := fun _ => some ""
    convert := fun _ _ => 0 }

/-- Claim C4 counterexample: the canonical file is missing while the
bundle-variant file holds content whose SHA-1 equals the upstream hash,
so by the claim no fetch should happen ("if and only if neither the
canonical jar file nor the bundle-variant file holds content whose SHA-1
equals the upstream hash"), yet the code downloads: the bundle-variant
file is never consulted when the canonical file does not exist. -/
theorem C4_counterexample :
    dictLookup c4fs c4jar.jar_path = none ∧
    dictLookup c4fs (withSuffix c4jar.jar_path ".bundle.jar") = some [1, 2] ∧
    c4env.sha1 [1, 2] = c4meta.sha1 ∧
    JarsEvent.download c4meta.url ∈ (JarsJar.update c4env c4jar c4meta c4fs).evs := by
  exact ⟨by decide, by decide, by decide, by decide⟩

/-- Witness for the amended C4: a missing canonical file with a matching
bundle-variant file satisfies the amended right-hand side, and indeed the
download event occurs. -/
theorem C4_witness :
    JarsEvent.download c4meta.url ∈ (JarsJar.update c4env c4jar c4meta c4fs).evs :=
  (C4_amended_download_condition c4env c4jar c4meta c4fs (by decide)).2
    (Or.inl (by decide))

/-! ## Claim C7: multi-version bundle manifests -/

theorem jarsJarUpdateRest_multi (env : JarsEnv) (self : JarsJar) (m : MetaJar)
    (fs1 : FS) (evs1 : List JarsEvent) (b : Bytes) (z : List (String × Bytes))
    (vlb : Bytes) (vs : String)
    (hb : dictLookup fs1 self.jar_path = some b)
    (hz : env.zip b = some z)
    (hvl : dictLookup z "META-INF/versions.list" = some vlb)
    (hdec : env.decodeUtf8 vlb = some vs)
    (hlen : 1 < (splitlines vs).length) :
    jarsJarUpdateRest env self m fs1 evs1 =
      ⟨self, fs1, evs1,
       some (self.jar_path ++ " META-INF/versions.list contains more than one version"),
       false⟩ := by
  simp only [jarsJarUpdateRest]
  rw [hb]
  simp only []
  rw [hz]
  simp only [dictContains, hvl, hdec, Option.isSome_some, if_true, if_pos hlen]

/-- Claim C7 (amended): when the canonical archive (the pre-existing one,
or the one just fetched) has a bundle manifest naming more than one inner
version, JarsJar.update raises the multi-version error, stays not dirty,
leaves the record un-mutated and performs no unwrap (no rename-aside, no
write of inner bytes); but if the download step ran, the fetched bundle
bytes have already been written to the canonical path and remain there. -/
theorem C7_amended_multi_version_bundle (env : JarsEnv) (r : JarsJar)
    (m : MetaJar) (fs : FS) (h : m.sha1 ≠ r.jar_sha1_meta)
    (hm : ∀ b, (b = env.fetch m.url ∨ dictLookup fs r.jar_path = some b) →
      ∃ z vlb vs, env.zip b = some z ∧
        dictLookup z "META-INF/versions.list" = some vlb ∧
        env.decodeUtf8 vlb = some vs ∧ 1 < (splitlines vs).length) :
    JarsJar.update env r m fs =
      ⟨r, dictInsert fs r.jar_path (env.fetch m.url), [JarsEvent.download m.url],
       some (r.jar_path ++ " META-INF/versions.list contains more than one version"),
       false⟩ ∨
    JarsJar.update env r m fs =
      ⟨r, fs, [],
       some (r.jar_path ++ " META-INF/versions.list contains more than one version"),
       false⟩ := by
  simp only [JarsJar.update]
  rw [if_neg h]
  rcases hjb : dictLookup fs r.jar_path with _ | jb
  · left
    simp only [hjb]
    obtain ⟨z, vlb, vs, hz, hvl, hdec, hlen⟩ := hm (env.fetch m.url) (Or.inl rfl)
    exact jarsJarUpdateRest_multi env r m _ _ (env.fetch m.url) z vlb vs
      (dictLookup_insert_self fs r.jar_path (env.fetch m.url)) hz hvl hdec hlen
  · simp only [hjb]
    by_cases hd : (decide (m.sha1 ≠ env.sha1 jb) &&
        (match dictLookup fs (withSuffix r.jar_path ".bundle.jar") with
         | none => true
         | some bb => decide (m.sha1 ≠ env.sha1 bb))) = true
    · left
      rw [if_pos hd, if_pos hd]
      obtain ⟨z, vlb, vs, hz, hvl, hdec, hlen⟩ := hm (env.fetch m.url) (Or.inl rfl)
      exact jarsJarUpdateRest_multi env r m _ _ (env.fetch m.url) z vlb vs
        (dictLookup_insert_self fs r.jar_path (env.fetch m.url)) hz hvl hdec hlen
    · right
      rw [if_neg hd, if_neg hd]
      obtain ⟨z, vlb, vs, hz, hvl, hdec, hlen⟩ := hm jb (Or.inr hjb)
      exact jarsJarUpdateRest_multi env r m _ _ jb z vlb vs hjb hz hvl hdec hlen

def c7jar : JarsJar :=
  { version_id := "A", version_file_id := "fa", version_release_time := 1,
    jar_key := "client", jar_sha1_meta := "OLD", jar_sha1_local := "OLD",
    jar_filename := "A-client.jar", map_filename := "A-client.tiny" }

def c7meta : MetaJar :=
  { version_id := "A", version_file_id := "fa", version_release_time := 1,
    key := "client", sha1 := "NEW", url := "u7" }

def c7env : JarsEnv :=
  { sha1 := fun _ => "X"
    fetch := fun _ => [5, 5]
    zip := fun b => if b = [5, 5] then some [("META-INF/versions.list", [1])] else none
    decodeUtf8 := fun b => if b = [1] then some "a\tx\nb\ty" else none
    convert := fun _ _ => 0 }

/-- Claim C7 counterexample: the fetched archive's bundle manifest names
two inner versions, the multi-version error is raised, yet a canonical
file HAS been written for the artifact: the download step wrote the
fetched bundle bytes to the canonical path before the manifest was
inspected, so "leaves no canonical file written" is false. -/
theorem C7_counterexample :
    (JarsJar.update c7env c7jar c7meta []).error =
      some "mappings/A-client.jar META-INF/versions.list contains more than one version" ∧
    dictLookup (JarsJar.update c7env c7jar c7meta []).fs c7jar.jar_path =
      some [5, 5] := by
  exact ⟨by decide, by decide⟩

/-- Witness for the amended C7 at the concrete two-line-manifest input. -/
theorem C7_witness :
    JarsJar.update c7env c7jar c7meta [] =
      ⟨c7jar, dictInsert [] c7jar.jar_path (c7env.fetch c7meta.url),
       [JarsEvent.download c7meta.url],
       some (c7jar.jar_path ++ " META-INF/versions.list contains more than one version"),
       false⟩ ∨
    JarsJar.update c7env c7jar c7meta [] =
      ⟨c7jar, [], [],
       some (c7jar.jar_path ++ " META-INF/versions.list contains more than one version"),
       false⟩ := by
  refine C7_amended_multi_version_bundle c7env c7jar c7meta [] (by decide) ?_
  intro b hb
  rcases hb with hb | hb
  · refine ⟨[("META-INF/versions.list", [1])], [1], "a\tx\nb\ty", ?_, ?_, ?_, ?_⟩
    · rw [hb]; decide
    · decide
    · decide
    · decide
  · simp [dictLookup] at hb

/-! ## Claim C8: bundle unwrap and its idempotence -/

/-- Claim C8: for an archive whose bundle manifest names exactly one inner
version (fetched bytes B holding nonempty inner bytes, with an honest
fetcher, a well-formed manifest and a successful converter), one run of
JarsJar.update produces the bundle-suffixed sibling holding the original
bytes and the canonical file holding the inner entry's bytes; running the
update again over the resulting file tree with the same not-yet-persisted
record performs no second download and no second unwrap (only the
converter runs again), because the download step's hash check matches the
bundle-variant file. -/
theorem C8_bundle_unwrap_idempotent (env : JarsEnv) (r : JarsJar) (m : MetaJar)
    (fs : FS) (B inner vlb : Bytes) (z zi : List (String × Bytes)) (vs : String)
    (h0 : m.sha1 ≠ r.jar_sha1_meta)
    (hjar : dictLookup fs r.jar_path = none)
    (hfetch : env.fetch m.url = B)
    (hhash : env.sha1 B = m.sha1)
    (hzip : env.zip B = some z)
    (hvl : dictLookup z "META-INF/versions.list" = some vlb)
    (hdec : env.decodeUtf8 vlb = some vs)
    (hone : (splitlines vs).length = 1)
    (hinner : dictLookup z
      ("META-INF/versions/" ++ (splitOnChar (Char.ofNat 9) vs).getLastD "") = some inner)
    (hinner_ne : inner ≠ [])
    (hzi : env.zip inner = some zi)
    (hnoman : dictLookup zi "META-INF/versions.list" = none)
    (hconv : env.convert r.jar_path r.map_path = 0)
    (hne : withSuffix r.jar_path ".bundle.jar" ≠ r.jar_path) :
    (JarsJar.update env r m fs).error = none ∧
    (JarsJar.update env r m fs).evs =
      [JarsEvent.download m.url, JarsEvent.unwrap, JarsEvent.convert] ∧
    dictLookup (JarsJar.update env r m fs).fs
      (withSuffix r.jar_path ".bundle.jar") = some B ∧
    dictLookup (JarsJar.update env r m fs).fs r.jar_path = some inner ∧
    (JarsJar.update env r m fs).dirty = true ∧
    (JarsJar.update env r m (JarsJar.update env r m fs).fs).evs =
      [JarsEvent.convert] := by
  have hrun1 : JarsJar.update env r m fs =
      ⟨{ r with jar_sha1_meta := m.sha1, jar_sha1_local := env.sha1 inner },
       dictInsert (dictInsert (dictErase (dictInsert fs r.jar_path B) r.jar_path)
         (withSuffix r.jar_path ".bundle.jar") B) r.jar_path inner,
       [JarsEvent.download m.url, JarsEvent.unwrap, JarsEvent.convert],
       none, true⟩ := by
    simp only [JarsJar.update]
    rw [if_neg h0]
    simp only [hjar, hfetch, if_true]
    simp only [jarsJarUpdateRest, dictLookup_insert_self, hzip, dictContains, hvl,
      hdec, Option.isSome_some, if_true, hone, hinner]
    simp [hinner_ne, hconv, dictLookup_insert_self]
  rw [hrun1]
  have hljar : dictLookup
      (dictInsert (dictInsert (dictErase (dictInsert fs r.jar_path B) r.jar_path)
        (withSuffix r.jar_path ".bundle.jar") B) r.jar_path inner) r.jar_path =
      some inner := dictLookup_insert_self _ _ _
  have hlbundle : dictLookup
      (dictInsert (dictInsert (dictErase (dictInsert fs r.jar_path B) r.jar_path)
        (withSuffix r.jar_path ".bundle.jar") B) r.jar_path inner)
      (withSuffix r.jar_path ".bundle.jar") = some B := by
    rw [dictLookup_insert_ne _ _ _ _ hne, dictLookup_insert_self]
  refine ⟨rfl, rfl, hlbundle, hljar, rfl, ?_⟩
  simp only [JarsJar.update]
  rw [if_neg h0]
  simp only [hljar, hlbundle, hhash]
  simp only [ne_eq, not_true_eq_false, decide_False, Bool.and_false,
    Bool.false_eq_true, if_false]
  simp only [jarsJarUpdateRest, hljar, hzi, dictContains, hnoman,
    Option.isSome_none, Bool.false_eq_true, if_false]
  simp [hconv, hljar]

def c8jar : JarsJar :=
  { version_id := "A", version_file_id := "fa", version_release_time := 1,
    jar_key := "client", jar_sha1_meta := "", jar_sha1_local := "",
    jar_filename := "A-client.jar", map_filename := "A-client.tiny" }

def c8meta : MetaJar :=
  { version_id := "A", version_file_id := "fa", version_release_time := 1,
    key := "client", sha1 := "H5", url := "u8" }

def c8env : JarsEnv :=
  { sha1 := fun b => if b.length = 5 then "H5" else "H?"
    fetch := fun _ => [1, 2, 3, 4, 5]
    zip := fun b =>
      if b = [1, 2, 3, 4, 5] then
        some [("META-INF/versions.list", [0]),
              ("META-INF/versions/inner/x.jar", [7, 7, 7])]
      else some []
    decodeUtf8 := fun b => if b = [0] then some "1.0\tid\tinner/x.jar" else some ""
    convert := fun _ _ => 0 }

/-- Witness for C8 at a concrete one-entry bundle. -/
theorem C8_witness :
    (JarsJar.update c8env c8jar c8meta []).error = none ∧
    (JarsJar.update c8env c8jar c8meta []).evs =
      [JarsEvent.download c8meta.url, JarsEvent.unwrap, JarsEvent.convert] ∧
    dictLookup (JarsJar.update c8env c8jar c8meta []).fs
      (withSuffix c8jar.jar_path ".bundle.jar") = some [1, 2, 3, 4, 5] ∧
    dictLookup (JarsJar.update c8env c8jar c8meta []).fs c8jar.jar_path =
      some [7, 7, 7] ∧
    (JarsJar.update c8env c8jar c8meta []).dirty = true ∧
    (JarsJar.update c8env c8jar c8meta
      (JarsJar.update c8env c8jar c8meta []).fs).evs = [JarsEvent.convert] :=
  C8_bundle_unwrap_idempotent c8env c8jar c8meta [] [1, 2, 3, 4, 5] [7, 7, 7] [0]
    [("META-INF/versions.list", [0]), ("META-INF/versions/inner/x.jar", [7, 7, 7])]
    [] "1.0\tid\tinner/x.jar" (by decide) (by decide) rfl (by decide) (by decide)
    (by decide) (by decide) (by decide) (by decide) (by decide) (by decide)
    (by decide) (by decide) (by decide)

/-! ## Lemmas about the keyed descending sort -/

theorem decorateByTime_mem {V : Type} (timeOf : String → Except String Int)
    (d : List (String × V)) (ds : List (Int × String × V))
    (h : decorateByTime timeOf d = Except.ok ds) :
    ∀ x ∈ ds, timeOf x.2.1 = Except.ok x.1 := by
  induction d generalizing ds with
  | nil =>
    simp only [decorateByTime] at h
    cases h
    intro x hx
    simp at hx
  | cons hd tl ih =>
    obtain ⟨k, v⟩ := hd
    simp only [decorateByTime] at h
    rcases ht : timeOf k with e | t
    · rw [ht] at h; cases h
    · rw [ht] at h
      rcases hrec : decorateByTime timeOf tl with e | ds'
      · rw [hrec] at h; cases h
      · rw [hrec] at h
        cases h
        intro x hx
        rcases List.mem_cons.1 hx with hx | hx
        · rw [hx]; exact ht
        · exact ih ds' hrec x hx

theorem decorateByTime_strip {V : Type} (timeOf : String → Except String Int)
    (d : List (String × V)) (ds : List (Int × String × V))
    (h : decorateByTime timeOf d = Except.ok ds) :
    ds.map (fun t => (t.2.1, t.2.2)) = d := by
  induction d generalizing ds with
  | nil => simp only [decorateByTime] at h; cases h; rfl
  | cons hd tl ih =>
    obtain ⟨k, v⟩ := hd
    simp only [decorateByTime] at h
    rcases ht : timeOf k with e | t
    · rw [ht] at h; cases h
    · rw [ht] at h
      rcases hrec : decorateByTime timeOf tl with e | ds'
      · rw [hrec] at h; cases h
      · rw [hrec] at h
        cases h
        simp only [List.map_cons]
        rw [ih ds' hrec]

theorem sortOuterByTimeDesc_perm {V : Type} (timeOf : String → Except String Int)
    (d out : List (String × V)) (h : sortOuterByTimeDesc timeOf d = Except.ok out) :
    out.Perm d := by
  simp only [sortOuterByTimeDesc] at h
  rcases hdec : decorateByTime timeOf d with e | ds
  · rw [hdec] at h; cases h
  · rw [hdec] at h
    cases h
    have h1 := (stableSort_perm (fun a b => decide (b.1 ≤ a.1)) ds).map
      (fun t => (t.2.1, t.2.2))
    rw [decorateByTime_strip timeOf d ds hdec] at h1
    exact h1

theorem sortOuterByTimeDesc_pairwise {V : Type}
    (timeOf : String → Except String Int) (d out : List (String × V))
    (h : sortOuterByTimeDesc timeOf d = Except.ok out) :
    List.Pairwise (fun a b => ∃ ta tb, timeOf a.1 = Except.ok ta ∧
      timeOf b.1 = Except.ok tb ∧ tb ≤ ta) out := by
  simp only [sortOuterByTimeDesc] at h
  rcases hdec : decorateByTime timeOf d with e | ds
  · rw [hdec] at h; cases h
  · rw [hdec] at h
    cases h
    have hsorted : List.Pairwise
        (fun a b : Int × String × V => decide (b.1 ≤ a.1) = true)
        (stableSort (fun a b => decide (b.1 ≤ a.1)) ds) := by
      apply stableSort_pairwise
      · intro a b c hab hbc
        exact decide_eq_true
          (le_trans (of_decide_eq_true hbc) (of_decide_eq_true hab))
      · intro a b
        rcases Int.le_total b.1 a.1 with h1 | h1
        · exact Or.inl (decide_eq_true h1)
        · exact Or.inr (decide_eq_true h1)
    have hmem : ∀ x ∈ stableSort (fun a b : Int × String × V => decide (b.1 ≤ a.1)) ds,
        timeOf x.2.1 = Except.ok x.1 := by
      intro x hx
      exact decorateByTime_mem timeOf d ds hdec x
        ((stableSort_perm _ ds).mem_iff.1 hx)
    rw [List.pairwise_map]
    refine hsorted.imp_of_mem ?_
    intro a b ha hb hab
    exact ⟨a.1, b.1, hmem a ha, hmem b hb, of_decide_eq_true hab⟩

/-! ## Claim C5: the ordering invariants after a dirtying update -/

def c5rS : JarsJar :=
  { version_id := "1.0", version_file_id := "f1", version_release_time := 5,
    jar_key := "server", jar_sha1_meta := "SS", jar_sha1_local := "LS",
    jar_filename := "1.0-server.jar", map_filename := "1.0-server.tiny" }

def c5mS : MetaJar :=
  { version_id := "1.0", version_file_id := "f1", version_release_time := 5,
    key := "server", sha1 := "SS", url := "uS" }

def c5mC : MetaJar :=
  { version_id := "1.0", version_file_id := "f1", version_release_time := 5,
    key := "client", sha1 := "SC", url := "uC" }

def c5meta : Meta :=
  { commit := "c"
    minecraft := [{ id := "1.0", file_id := "f1", release_time := 5, sha1 := "h",
                    jars := [("client", c5mC), ("server", c5mS)] }] }

def c5jars : Jars := { versions := [("1.0", [("server", c5rS)])] }

def c5env : JarsEnv :=
  { sha1 := fun _ => "LC", fetch := fun _ => [3], zip := fun _ => some [],
    decodeUtf8 := fun _ => some "", convert := fun _ _ => 0 }

/-- Claim C5 counterexample: a dirtying Jars.update whose only change is
the creation of a new record under an existing version leaves that inner
map NOT in ascending lexical key order: the new "client" key is appended
after the existing "server" key and the per-jar sort only runs on a
dirtying update of an existing record, so the claim that after any
dirtying update every inner map is ascending is false. -/
theorem C5_counterexample :
    (Jars.update c5env c5meta c5jars []).error = none ∧
    (Jars.update c5env c5meta c5jars []).dirty = true ∧
    dictKeys ((dictLookup (Jars.update c5env c5meta c5jars []).jars.versions
      "1.0").getD []) = ["server", "client"] ∧
    ¬ List.Pairwise (fun a b : String => a ≤ b) ["server", "client"] := by
  refine ⟨by decide, by decide, by decide, ?_⟩
  intro hp
  have h := List.rel_of_pairwise_cons hp (List.mem_singleton.2 rfl)
  rw [String.le_iff_toList_le] at h
  revert h
  decide

theorem sort_dict_keys_sorted {V : Type} (d : List (String × V)) :
    List.Pairwise (fun a b : String => a ≤ b) (dictKeys (sort_dict d)) := by
  have hs : List.Pairwise (fun a b : String × V => decide (a.1 ≤ b.1) = true)
      (sort_dict d) := by
    apply stableSort_pairwise
    · intro a b c hab hbc
      exact decide_eq_true (le_trans (of_decide_eq_true hab) (of_decide_eq_true hbc))
    · intro a b
      rcases le_total a.1 b.1 with h | h
      · exact Or.inl (decide_eq_true h)
      · exact Or.inr (decide_eq_true h)
  unfold dictKeys
  rw [List.pairwise_map]
  exact hs.imp (fun h => of_decide_eq_true h)

theorem sortVersionsDesc_pairwise (vs : List MetaVersion) :
    List.Pairwise (fun a b : MetaVersion => b.release_time ≤ a.release_time)
      (sortVersionsDesc vs) := by
  have hs : List.Pairwise
      (fun a b : MetaVersion => decide (b.release_time ≤ a.release_time) = true)
      (sortVersionsDesc vs) := by
    apply stableSort_pairwise
    · intro a b c hab hbc
      exact decide_eq_true (le_trans (of_decide_eq_true hbc) (of_decide_eq_true hab))
    · intro a b
      rcases Int.le_total b.release_time a.release_time with h | h
      · exact Or.inl (decide_eq_true h)
      · exact Or.inr (decide_eq_true h)
  exact hs.imp (fun h => of_decide_eq_true h)

/-- Claim C5 (amended): after a dirtying update that returns normally, the
outer map of each store is ordered by non-increasing release time (Meta by
the versions' own field; Jars and Index by the store's release-time
lookup, whose success the sort requires), and Meta additionally leaves the
jars map of every version it rewrote in ascending key order; but inner
maps are NOT ascending store-wide, because newly created records are
appended without a re-sort (see the counterexample). -/
theorem C5_amended_sort_invariants :
    (∀ (sha1fn : Bytes → String) (files : List VersionJsonFile) (m : Meta),
      (Meta.update sha1fn files m).error = none →
      (Meta.update sha1fn files m).dirty = true →
      List.Pairwise (fun a b : MetaVersion => b.release_time ≤ a.release_time)
        (Meta.update sha1fn files m).state.minecraft) ∧
    (∀ (sha1fn : Bytes → String) (v : MetaVersion) (f : VersionJsonFile),
      (MetaVersion.update sha1fn v f).error = none →
      (MetaVersion.update sha1fn v f).dirty = true →
      List.Pairwise (fun a b : String => a ≤ b)
        (dictKeys (MetaVersion.update sha1fn v f).state.jars)) ∧
    (∀ (env : JarsEnv) (meta : Meta) (self : Jars) (fs : FS) versions fs' evs out,
      jarsVLoop env meta.minecraft.reverse self.versions fs [] false =
        (versions, fs', evs, none, true) →
      sortOuterByTimeDesc (Jars.get_version_release_time ⟨versions⟩) versions =
        Except.ok out →
      Jars.update env meta self fs = ⟨⟨out⟩, fs', evs, none, true⟩ ∧
      List.Pairwise (fun a b => ∃ ta tb,
        Jars.get_version_release_time ⟨versions⟩ a.1 = Except.ok ta ∧
        Jars.get_version_release_time ⟨versions⟩ b.1 = Except.ok tb ∧ tb ≤ ta) out) ∧
    (∀ (jars : Jars) (self : Index) mappings out,
      indexLoop (jarsAll jars.versions) self.mappings false =
        (mappings, none, true) →
      sortOuterByTimeDesc (indexGetVersionReleaseTime mappings) mappings =
        Except.ok out →
      Index.update jars self = ⟨{ self with mappings := out }, none, true⟩ ∧
      List.Pairwise (fun a b => ∃ ta tb,
        indexGetVersionReleaseTime mappings a.1 = Except.ok ta ∧
        indexGetVersionReleaseTime mappings b.1 = Except.ok tb ∧ tb ≤ ta) out) := by
  refine ⟨?_, ?_, ?_, ?_⟩
  · intro sha1fn files m he hd
    simp only [Meta.update] at he hd ⊢
    generalize hq : metaUpdateLoop sha1fn files m.minecraft false = q at he hd ⊢
    obtain ⟨vs, e, d⟩ := q
    cases e with
    | some err => exact Option.noConfusion he
    | none =>
      cases d with
      | false => exact Bool.noConfusion hd
      | true => exact sortVersionsDesc_pairwise vs
  · intro sha1fn v f he hd
    simp only [MetaVersion.update] at he hd ⊢
    by_cases hsha : v.sha1 = sha1fn f.bytes
    · rw [if_pos hsha] at hd
      simp at hd
    · rw [if_neg hsha] at he hd ⊢
      split at he
      · simp at he
      · rename_i jars' heq
        exact sort_dict_keys_sorted jars'
  · intro env meta self fs versions fs' evs out hloop hsort
    constructor
    · simp only [Jars.update]
      rw [hloop]
      simp only [if_true]
      rw [hsort]
    · exact sortOuterByTimeDesc_pairwise _ versions out hsort
  · intro jars self mappings out hloop hsort
    constructor
    · simp only [Index.update]
      rw [hloop]
      simp only [if_true]
      rw [hsort]
    · exact sortOuterByTimeDesc_pairwise _ mappings out hsort

def c6mA : MetaJar :=
  { version_id := "A", version_file_id := "fa", version_release_time := 10,
    key := "client", sha1 := "SA", url := "uA" }

def c6mB : MetaJar :=
  { version_id := "B", version_file_id := "fb", version_release_time := 5,
    key := "client", sha1 := "SB", url := "uB" }

def c6mC : MetaJar :=
  { version_id := "C", version_file_id := "fc", version_release_time := 0,
    key := "client", sha1 := "SC", url := "uC" }

def c6meta : Meta :=
  { commit := "c"
    minecraft := [
      { id := "A", file_id := "fa", release_time := 10, sha1 := "ha",
        jars := [("client", c6mA)] },
      { id := "B", file_id := "fb", release_time := 5, sha1 := "hb",
        jars := [("client", c6mB)] },
      { id := "C", file_id := "fc", release_time := 0, sha1 := "hc",
        jars := [("client", c6mC)] }] }

def c6rA : JarsJar :=
  { version_id := "A", version_file_id := "fa", version_release_time := 1,
    jar_key := "client", jar_sha1_meta := "SA", jar_sha1_local := "LA",
    jar_filename := "A-client.jar", map_filename := "A-client.tiny" }

def c6rB : JarsJar :=
  { version_id := "B", version_file_id := "fb", version_release_time := 2,
    jar_key := "client", jar_sha1_meta := "SB", jar_sha1_local := "LB",
    jar_filename := "B-client.jar", map_filename := "B-client.tiny" }

def c6rC : JarsJar :=
  { version_id := "C", version_file_id := "fc", version_release_time := 0,
    jar_key := "client", jar_sha1_meta := "SC", jar_sha1_local := "LC",
    jar_filename := "C-client.jar", map_filename := "C-client.tiny" }

def c6jars : Jars :=
  { versions := [("A", [("client", c6rA)]), ("B", [("client", c6rB)])] }

def c6env : JarsEnv :=
  { sha1 := fun _ => "LC", fetch := fun _ => [3], zip := fun _ => some [],
    decodeUtf8 := fun _ => some "", convert := fun _ _ => 0 }

def c6versionsAfter : List (String × List (String × JarsJar)) :=
  [("A", [("client", c6rA)]), ("B", [("client", c6rB)]), ("C", [("client", c6rC)])]

def c6out : List (String × List (String × JarsJar)) :=
  [("B", [("client", c6rB)]), ("A", [("client", c6rA)]), ("C", [("client", c6rC)])]

def c5metaEmpty : Meta := { commit := "", minecraft := [] }

def c5im : IndexMapping := IndexMapping.from_jar c5rS

def c5mappings : List (String × List (String × IndexMapping)) :=
  [("1.0", [("server", c5im)])]

/-- Witness for the amended C5 at concrete inputs, one per store. -/
theorem C5_witness :
    List.Pairwise (fun a b : MetaVersion => b.release_time ≤ a.release_time)
      (Meta.update c2fnNe [c2f] c5metaEmpty).state.minecraft ∧
    List.Pairwise (fun a b : String => a ≤ b)
      (dictKeys (MetaVersion.update c2fnNe c2v c2f).state.jars) ∧
    Jars.update c6env c6meta c6jars [] =
      ⟨⟨c6out⟩, [("mappings/C-client.jar", [3])],
       [JarsEvent.download "uC", JarsEvent.convert], none, true⟩ ∧
    Index.update c5jars { timestamp := 0, mappings := [] } =
      ⟨{ timestamp := 0, mappings := c5mappings }, none, true⟩ :=
  ⟨C5_amended_sort_invariants.1 c2fnNe [c2f] c5metaEmpty (by decide) (by decide),
   C5_amended_sort_invariants.2.1 c2fnNe c2v c2f (by decide) (by decide),
   (C5_amended_sort_invariants.2.2.1 c6env c6meta c6jars [] c6versionsAfter
     [("mappings/C-client.jar", [3])] [JarsEvent.download "uC", JarsEvent.convert]
     c6out rfl rfl).1,
   (C5_amended_sort_invariants.2.2.2 c5jars { timestamp := 0, mappings := [] }
     c5mappings c5mappings rfl rfl).1⟩

/-! ## Claim C6: where the final sort gets its key -/

/-- Modelled from the spec: "re-sort the outer map by descending release
time (looked up via MetaStore, since ArtifactStore does not store release
time itself)".  The release time a MetaStore consultation would produce
for a version key: search meta.minecraft for the version.  Only used to
compare the specified sort against the implemented one. -/
def specMetaReleaseTime (meta : Meta) (version : String) : Except String Int :=
  match meta.minecraft.find? (fun v => version == v.id || version == v.file_id) with
  | some v => Except.ok v.release_time
  | none => Except.error ("not in MetaStore " ++ version)

/-- Claim C6 counterexample: the final sort of Jars.update takes each
version's release time from the ArtifactStore's OWN records (which do
store version_release_time), not from the MetaStore.  Concretely the
stored records say B(2) is newer than A(1) while the meta says A(10) is
newer than B(5); the run sorts ["B", "A", "C"], whereas consulting the
MetaStore as the claim states would sort ["A", "B", "C"]. -/
theorem C6_counterexample :
    (Jars.update c6env c6meta c6jars []).error = none ∧
    (Jars.update c6env c6meta c6jars []).dirty = true ∧
    dictKeys (Jars.update c6env c6meta c6jars []).jars.versions = ["B", "A", "C"] ∧
    Except.map dictKeys (sortOuterByTimeDesc (specMetaReleaseTime c6meta)
      (Jars.update c6env c6meta c6jars []).jars.versions) =
      Except.ok ["A", "B", "C"] ∧
    (["B", "A", "C"] : List String) ≠ ["A", "B", "C"] := by
  exact ⟨rfl, rfl, rfl, rfl, by decide⟩

/-- Claim C6 (amended): when the pass over the meta versions was dirty,
Jars.update re-sorts the outer map by descending release time where the
sort key for each version id is obtained from the ArtifactStore's own
records: Jars.get_version_release_time scans the store's records (which
do carry version_release_time) for one matching the version id or the
version-file id, and never consults the MetaStore. -/
theorem C6_amended_sort_uses_own_records :
    (∀ (env : JarsEnv) (meta : Meta) (self : Jars) (fs : FS) versions fs' evs,
      jarsVLoop env meta.minecraft.reverse self.versions fs [] false =
        (versions, fs', evs, none, true) →
      Jars.update env meta self fs =
        (match sortOuterByTimeDesc (Jars.get_version_release_time ⟨versions⟩)
            versions with
         | Except.error e => ⟨⟨versions⟩, fs', evs, some e, false⟩
         | Except.ok versions' => ⟨⟨versions'⟩, fs', evs, none, true⟩)) ∧
    (∀ (self : Jars) (version : String) (t : Int),
      Jars.get_version_release_time self version = Except.ok t →
      ∃ jar, jar ∈ jarsAll self.versions ∧
        (version = jar.version_id ∨ version = jar.version_file_id) ∧
        t = jar.version_release_time) := by
  constructor
  · intro env meta self fs versions fs' evs hloop
    simp only [Jars.update]
    rw [hloop]
    rfl
  · intro self version t h
    simp only [Jars.get_version_release_time] at h
    rcases hf : (jarsAll self.versions).find?
        (fun jar => version == jar.version_id || version == jar.version_file_id)
      with _ | jar
    · rw [hf] at h
      exact Except.noConfusion h
    · rw [hf] at h
      have ht : jar.version_release_time = t := by
        cases h
        rfl
      refine ⟨jar, List.mem_of_find?_eq_some hf, ?_, ht.symm⟩
      have hp := List.find?_some hf
      simp only [Bool.or_eq_true, beq_iff_eq] at hp
      exact hp

/-- Witness for the amended C6 at the concrete three-version input. -/
theorem C6_witness :
    Jars.update c6env c6meta c6jars [] =
      (match sortOuterByTimeDesc (Jars.get_version_release_time ⟨c6versionsAfter⟩)
          c6versionsAfter with
       | Except.error e =>
         ⟨⟨c6versionsAfter⟩, [("mappings/C-client.jar", [3])],
          [JarsEvent.download "uC", JarsEvent.convert], some e, false⟩
       | Except.ok versions' =>
         ⟨⟨versions'⟩, [("mappings/C-client.jar", [3])],
          [JarsEvent.download "uC", JarsEvent.convert], none, true⟩) ∧
    (∃ jar, jar ∈ jarsAll c6jars.versions ∧
      ("A" = jar.version_id ∨ "A" = jar.version_file_id) ∧
      (1 : Int) = jar.version_release_time) :=
  ⟨C6_amended_sort_uses_own_records.1 c6env c6meta c6jars [] c6versionsAfter
     [("mappings/C-client.jar", [3])] [JarsEvent.download "uC", JarsEvent.convert] rfl,
   C6_amended_sort_uses_own_records.2 c6jars "A" 1 rfl⟩

/-! ## Claim C1: idempotence of the three reconciles.  Record-level lemmas -/

theorem dictLookup_mem {K V : Type} [DecidableEq K] (d : List (K × V)) (k : K)
    (v : V) (h : dictLookup d k = some v) : (k, v) ∈ d := by
  induction d with
  | nil => simp [dictLookup] at h
  | cons hd tl ih =>
    obtain ⟨k0, v0⟩ := hd
    by_cases h0 : k0 = k
    · subst h0
      simp only [dictLookup, if_pos rfl] at h
      cases h
      exact List.mem_cons_self _ _
    · simp only [dictLookup, if_neg h0] at h
      exact List.mem_cons_of_mem _ (ih h)

theorem filter_length_le_one_of_nodup_map {α β : Type} [DecidableEq β]
    (f : α → β) (l : List α) (b : β) (h : (l.map f).Nodup) :
    (l.filter (fun a => decide (f a = b))).length ≤ 1 := by
  induction l with
  | nil => simp
  | cons hd tl ih =>
    simp only [List.map_cons, List.nodup_cons] at h
    by_cases h0 : f hd = b
    · subst h0
      have hnil : tl.filter (fun a => decide (f a = f hd)) = [] := by
        rw [List.filter_eq_nil_iff]
        intro a ha hq
        have hk : f a = f hd := of_decide_eq_true hq
        exact h.1 (hk ▸ List.mem_map_of_mem f ha)
      simp [List.filter, hnil]
    · simp only [List.filter]
      have hd0 : (decide (f hd = b)) = false := by simp [h0]
      rw [hd0]
      exact ih h.2

theorem find?_eq_of_perm_of_nodup_map {α β : Type} [DecidableEq β] (f : α → β)
    (b : β) (l l' : List α) (hp : l.Perm l') (h : (l.map f).Nodup) :
    l'.find? (fun a => decide (f a = b)) = l.find? (fun a => decide (f a = b)) :=
  find?_eq_of_perm_of_unique _ l l' hp (filter_length_le_one_of_nodup_map f l b h)

theorem update_kwargs_id_ok (j : MetaJar) (vid vfid : String) (rt : Int)
    (k s u : String) (h1 : j.version_id = vid) (h2 : j.version_file_id = vfid)
    (h3 : j.version_release_time = rt) (h4 : j.key = k) :
    (j.update_kwargs vid vfid rt k s u).error = none ∧
    (j.update_kwargs vid vfid rt k s u).state.version_id = j.version_id ∧
    (j.update_kwargs vid vfid rt k s u).state.version_file_id = j.version_file_id ∧
    (j.update_kwargs vid vfid rt k s u).state.version_release_time =
      j.version_release_time ∧
    (j.update_kwargs vid vfid rt k s u).state.key = j.key := by
  subst h1
  subst h2
  subst h3
  subst h4
  simp only [MetaJar.update_kwargs, ne_eq, not_true_eq_false, if_false]
  by_cases hs : j.sha1 ≠ s <;> by_cases hu : j.url ≠ u <;>
    simp [hs, hu]

theorem jarsJar_update_skip (env : JarsEnv) (j : JarsJar) (m : MetaJar)
    (fs : FS) (h : m.sha1 = j.jar_sha1_meta) :
    JarsJar.update env j m fs = ⟨j, fs, [], none, false⟩ := by
  simp only [JarsJar.update]
  rw [if_pos h]

theorem jarsJarUpdateRest_cases (env : JarsEnv) (self : JarsJar) (m : MetaJar)
    (fs1 : FS) (evs1 : List JarsEvent) :
    (jarsJarUpdateRest env self m fs1 evs1).error.isSome = true ∨
    (jarsJarUpdateRest env self m fs1 evs1).jar.jar_sha1_meta = m.sha1 := by
  simp only [jarsJarUpdateRest]
  repeat' split
  all_goals simp

theorem jarsJar_update_sha_meta (env : JarsEnv) (j : JarsJar) (m : MetaJar)
    (fs : FS) (he : (JarsJar.update env j m fs).error = none) :
    (JarsJar.update env j m fs).jar.jar_sha1_meta = m.sha1 := by
  by_cases h : m.sha1 = j.jar_sha1_meta
  · rw [jarsJar_update_skip env j m fs h]
    exact h.symm
  · simp only [JarsJar.update] at he ⊢
    rw [if_neg h] at he ⊢
    rcases jarsJarUpdateRest_cases env j m
        (if (match dictLookup fs j.jar_path with
             | none => true
             | some jb =>
               decide (m.sha1 ≠ env.sha1 jb) &&
                 (match dictLookup fs (withSuffix j.jar_path ".bundle.jar") with
                  | none => true
                  | some bb => decide (m.sha1 ≠ env.sha1 bb))) = true then
           dictInsert fs j.jar_path (env.fetch m.url)
         else fs)
        (if (match dictLookup fs j.jar_path with
             | none => true
             | some jb =>
               decide (m.sha1 ≠ env.sha1 jb) &&
                 (match dictLookup fs (withSuffix j.jar_path ".bundle.jar") with
                  | none => true
                  | some bb => decide (m.sha1 ≠ env.sha1 bb))) = true then
           [JarsEvent.download m.url]
         else []) with hc | hc
    · rw [he] at hc
      exact Bool.noConfusion hc
    · exact hc

theorem from_meta_jar_sha_meta (env : JarsEnv) (m : MetaJar) (fs : FS)
    (he : (JarsJar.from_meta_jar env m fs).error = none) :
    (JarsJar.from_meta_jar env m fs).jar.jar_sha1_meta = m.sha1 := by
  simp only [JarsJar.from_meta_jar] at he ⊢
  exact jarsJar_update_sha_meta env _ m fs he

theorem indexMapping_update_self (j : JarsJar) :
    IndexMapping.update (IndexMapping.from_jar j) j =
      ⟨IndexMapping.from_jar j, none, false⟩ := by
  simp [IndexMapping.update, IndexMapping.from_jar]

theorem indexMapping_update_stable (m : IndexMapping) (j : JarsJar)
    (he : (IndexMapping.update m j).error = none) :
    IndexMapping.update (IndexMapping.update m j).state j =
      ⟨(IndexMapping.update m j).state, none, false⟩ := by
  simp only [IndexMapping.update] at he ⊢
  by_cases h1 : m.version_id ≠ j.version_id
  · rw [if_pos h1] at he; exact Option.noConfusion he
  · rw [if_neg h1] at he ⊢
    by_cases h2 : m.version_file_id ≠ j.version_file_id
    · rw [if_pos h2] at he; exact Option.noConfusion he
    · rw [if_neg h2] at he ⊢
      by_cases h3 : m.version_release_time ≠ j.version_release_time
      · rw [if_pos h3] at he; exact Option.noConfusion he
      · rw [if_neg h3] at he ⊢
        by_cases h4 : m.jar_key ≠ j.jar_key
        · rw [if_pos h4] at he; exact Option.noConfusion he
        · rw [if_neg h4] at he ⊢
          push_neg at h1 h2 h3 h4
          by_cases hs : m.jar_sha1_meta ≠ j.jar_sha1_meta <;>
            by_cases hp : m.path ≠ j.map_path <;>
              by_cases hu : m.url ≠ BASE_URL ++ "/" ++ j.map_path <;>
                simp [hs, hp, hu, h1, h2, h3, h4]


theorem metaVersion_update_skip (sha1fn : Bytes → String) (v : MetaVersion)
    (f : VersionJsonFile) (h : v.sha1 = sha1fn f.bytes) :
    MetaVersion.update sha1fn v f = ⟨v, none, false⟩ := by
  simp only [MetaVersion.update]
  rw [if_pos h]

theorem metaVersion_update_state (sha1fn : Bytes → String) (v : MetaVersion)
    (f : VersionJsonFile) (he : (MetaVersion.update sha1fn v f).error = none) :
    (MetaVersion.update sha1fn v f).state.sha1 = sha1fn f.bytes ∧
    ((v.sha1 = sha1fn f.bytes ∧ MetaVersion.update sha1fn v f = ⟨v, none, false⟩) ∨
      (MetaVersion.update sha1fn v f).state.file_id = f.stem) := by
  by_cases hsha : v.sha1 = sha1fn f.bytes
  · rw [metaVersion_update_skip sha1fn v f hsha]
    exact ⟨hsha, Or.inl ⟨hsha, rfl⟩⟩
  · simp only [MetaVersion.update] at he ⊢
    rw [if_neg hsha] at he ⊢
    split at he
    · exact Option.noConfusion he
    · exact ⟨rfl, Or.inr rfl⟩

/-- The identity invariant of a version's jars dict: every record carries
the version's header fields and its own dict key. -/
def jarsIdOk (vid vfid : String) (rt : Int) (jars : List (String × MetaJar)) : Prop :=
  ∀ p ∈ jars, p.2.version_id = vid ∧ p.2.version_file_id = vfid ∧
    p.2.version_release_time = rt ∧ p.2.key = p.1

theorem metaVersionJarsLoop_ok (vid vfid : String) (rt : Int) :
    ∀ (dls : List (String × Download)) (jars : List (String × MetaJar)),
    jarsIdOk vid vfid rt jars →
    (metaVersionJarsLoop vid vfid rt dls jars).2 = none := by
  intro dls
  induction dls with
  | nil => intro jars _; rfl
  | cons hd tl ih =>
    intro jars h
    obtain ⟨name, dl⟩ := hd
    simp only [metaVersionJarsLoop]
    by_cases hn : JAR_NAMES.contains name = true
    · rw [if_pos hn]
      rcases hl : dictLookup jars name with _ | existing
      · apply ih
        intro p hp
        rcases mem_dictInsert _ _ _ _ hp with hin | heq
        · exact h p hin
        · rw [heq]
          exact ⟨rfl, rfl, rfl, rfl⟩
      · have hex := h (name, existing) (dictLookup_mem _ _ _ hl)
        simp only at hex
        obtain ⟨e1, e2, e3, e4⟩ := hex
        have hok := update_kwargs_id_ok existing vid vfid rt name dl.sha1 dl.url
          e1 e2 e3 e4
        simp only [MetaJar.update, hok.1]
        apply ih
        intro p hp
        rcases mem_dictInsert _ _ _ _ hp with hin | heq
        · exact h p hin
        · rw [heq]
          refine ⟨?_, ?_, ?_, ?_⟩
          · exact hok.2.1.trans e1
          · exact hok.2.2.1.trans e2
          · exact hok.2.2.2.1.trans e3
          · exact hok.2.2.2.2.trans e4
    · rw [if_neg hn]
      exact ih jars h

theorem metaVersion_update_empty_ok (sha1fn : Bytes → String)
    (f : VersionJsonFile) (hne : sha1fn f.bytes ≠ "") :
    (MetaVersion.update sha1fn MetaVersion.empty f).error = none := by
  simp only [MetaVersion.update]
  rw [if_neg (fun hh => hne (hh.symm.trans rfl))]
  have hok := metaVersionJarsLoop_ok f.id f.stem f.releaseTime
    (sort_dict f.downloads) MetaVersion.empty.jars
    (by intro p hp; simp [MetaVersion.empty] at hp)
  rcases hq : metaVersionJarsLoop f.id f.stem f.releaseTime
      (sort_dict f.downloads) MetaVersion.empty.jars with ⟨jars', e⟩
  rw [hq] at hok
  simp only at hok
  subst hok
  rfl

/-- One file of the Meta loop found a version whose stored hash already
matches the file's content hash. -/
def foundClean (sha1fn : Bytes → String) (f : VersionJsonFile)
    (vs : List MetaVersion) : Prop :=
  ∃ v, vs.find? (fun v => decide (v.file_id = f.stem)) = some v ∧
    v.sha1 = sha1fn f.bytes

theorem metaUpdateFile_skip (sha1fn : Bytes → String) (f : VersionJsonFile) :
    ∀ vs : List MetaVersion, foundClean sha1fn f vs →
    metaUpdateFile sha1fn f vs = (vs, none, false) := by
  intro vs
  induction vs with
  | nil =>
    intro hfc
    obtain ⟨v, hv, _⟩ := hfc
    simp at hv
  | cons w ws ih =>
    intro hfc
    obtain ⟨v, hv, hsha⟩ := hfc
    simp only [metaUpdateFile]
    by_cases hw : w.file_id = f.stem
    · rw [if_pos hw]
      have hvw : v = w := by
        rw [List.find?_cons_of_pos _ (by simp [hw])] at hv
        cases hv
        rfl
      rw [metaVersion_update_skip sha1fn w f (hvw ▸ hsha)]
    · rw [if_neg hw]
      have hv' : ws.find? (fun v => decide (v.file_id = f.stem)) = some v := by
        rw [List.find?_cons_of_neg _ (by simp [hw])] at hv
        exact hv
      rw [ih ⟨v, hv', hsha⟩]

theorem metaUpdateLoop_skip (sha1fn : Bytes → String) :
    ∀ (files : List VersionJsonFile) (vs : List MetaVersion),
    (∀ f ∈ files, foundClean sha1fn f vs) →
    metaUpdateLoop sha1fn files vs false = (vs, none, false) := by
  intro files
  induction files with
  | nil => intro vs _; rfl
  | cons f fs ih =>
    intro vs h
    simp only [metaUpdateLoop]
    rw [metaUpdateFile_skip sha1fn f vs (h f (List.mem_cons_self f fs))]
    simp only []
    exact ih vs (fun g hg => h g (List.mem_cons_of_mem f hg))

theorem metaUpdateFile_step (sha1fn : Bytes → String) (f : VersionJsonFile)
    (hne : sha1fn f.bytes ≠ "") (vs : List MetaVersion) :
    ∀ (vs' : List MetaVersion) (d : Bool),
    metaUpdateFile sha1fn f vs = (vs', none, d) →
    foundClean sha1fn f vs' ∧
    (∀ s, s ≠ f.stem →
      vs'.find? (fun v => decide (v.file_id = s)) =
        vs.find? (fun v => decide (v.file_id = s))) ∧
    (vs'.map (fun v => v.file_id) = vs.map (fun v => v.file_id) ∨
      (vs'.map (fun v => v.file_id) = vs.map (fun v => v.file_id) ++ [f.stem] ∧
        f.stem ∉ vs.map (fun v => v.file_id))) := by
  induction vs with
  | nil =>
    intro vs' d h
    simp only [metaUpdateFile] at h
    injection h with h1 h23
    injection h23 with h2 h3
    subst h1
    have hst := metaVersion_update_state sha1fn MetaVersion.empty f h2
    have hfid : (MetaVersion.update sha1fn MetaVersion.empty f).state.file_id =
        f.stem := by
      rcases hst.2 with ⟨hsha, _⟩ | hfid
      · exact absurd hsha.symm hne
      · exact hfid
    refine ⟨⟨_, ?_, hst.1⟩, ?_, ?_⟩
    · rw [List.find?_cons_of_pos _ (by simp [hfid])]
    · intro s hs
      rw [List.find?_cons_of_neg _ (by simp [hfid, Ne.symm hs])]
    · right
      constructor
      · simp only [List.map_cons, List.map_nil, List.nil_append, hfid]
      · simp
  | cons w ws ih =>
    intro vs' d h
    simp only [metaUpdateFile] at h
    by_cases hw : w.file_id = f.stem
    · rw [if_pos hw] at h
      injection h with h1 h23
      injection h23 with h2 h3
      subst h1
      have hst := metaVersion_update_state sha1fn w f h2
      have hfid : (MetaVersion.update sha1fn w f).state.file_id = f.stem := by
        rcases hst.2 with ⟨hsha, heq⟩ | hfid
        · rw [heq]
          exact hw
        · exact hfid
      refine ⟨⟨_, ?_, hst.1⟩, ?_, ?_⟩
      · rw [List.find?_cons_of_pos _ (by simp [hfid])]
      · intro s hs
        rw [List.find?_cons_of_neg _ (by simp [hfid, Ne.symm hs]),
          List.find?_cons_of_neg _ (by simp [hw, Ne.symm hs])]
      · left
        simp only [List.map_cons, hfid, hw]
    · rw [if_neg hw] at h
      injection h with h1 h23
      injection h23 with h2 h3
      subst h1
      have hq : metaUpdateFile sha1fn f ws =
          ((metaUpdateFile sha1fn f ws).1, none, (metaUpdateFile sha1fn f ws).2.2) := by
        rw [← h2]
      obtain ⟨ha, hb, hc⟩ := ih _ _ hq
      refine ⟨?_, ?_, ?_⟩
      · obtain ⟨v, hv, hsha⟩ := ha
        exact ⟨v, by rw [List.find?_cons_of_neg _ (by simp [hw])]; exact hv, hsha⟩
      · intro s hs
        by_cases hws : w.file_id = s
        · rw [List.find?_cons_of_pos _ (by simp [hws]),
            List.find?_cons_of_pos _ (by simp [hws])]
        · rw [List.find?_cons_of_neg _ (by simp [hws]),
            List.find?_cons_of_neg _ (by simp [hws])]
          exact hb s hs
      · rcases hc with hc | ⟨hc, hnot⟩
        · left
          simp only [List.map_cons, hc]
        · right
          constructor
          · simp only [List.map_cons, hc, List.cons_append]
          · simp only [List.map_cons, List.mem_cons]
            intro hor
            rcases hor with hor | hor
            · exact hw hor.symm
            · exact hnot hor

theorem metaUpdateLoop_establishes (sha1fn : Bytes → String) :
    ∀ (files : List VersionJsonFile) (vs : List MetaVersion) (dirty : Bool)
      (vs' : List MetaVersion) (d : Bool),
    metaUpdateLoop sha1fn files vs dirty = (vs', none, d) →
    (files.map (fun f => f.stem)).Nodup →
    (∀ f ∈ files, sha1fn f.bytes ≠ "") →
    (vs.map (fun v => v.file_id)).Nodup →
    (vs'.map (fun v => v.file_id)).Nodup ∧
    (∀ f ∈ files, foundClean sha1fn f vs') ∧
    (∀ s, s ∉ files.map (fun f => f.stem) →
      vs'.find? (fun v => decide (v.file_id = s)) =
        vs.find? (fun v => decide (v.file_id = s))) := by
  intro files
  induction files with
  | nil =>
    intro vs dirty vs' d h _ _ hnd
    simp only [metaUpdateLoop] at h
    injection h with h1 h23
    injection h23 with h2 h3
    subst h1
    exact ⟨hnd, by simp, fun s _ => rfl⟩
  | cons f fs ih =>
    intro vs dirty vs' d h hstems hne hnd
    simp only [metaUpdateLoop] at h
    rcases hr : metaUpdateFile sha1fn f vs with ⟨vs₁, e₁, d₁⟩
    rw [hr] at h
    cases e₁ with
    | some err =>
      injection h with h1 h23
      injection h23 with h2 h3
      exact Option.noConfusion h2
    | none =>
      simp only [List.map_cons, List.nodup_cons] at hstems
      have hnef : sha1fn f.bytes ≠ "" := hne f (List.mem_cons_self f fs)
      obtain ⟨ha, hb, hc⟩ := metaUpdateFile_step sha1fn f hnef vs vs₁ d₁ hr
      have hnd₁ : (vs₁.map (fun v => v.file_id)).Nodup := by
        rcases hc with hc | ⟨hc, hnot⟩
        · rw [hc]; exact hnd
        · rw [hc]
          rw [List.nodup_append]
          exact ⟨hnd, List.nodup_singleton _,
            fun a hain hbin => hnot ((List.mem_singleton.1 hbin) ▸ hain)⟩
      obtain ⟨ihnd, ihfc, ihframe⟩ := ih vs₁ (dirty || d₁) vs' d h hstems.2
        (fun g hg => hne g (List.mem_cons_of_mem f hg)) hnd₁
      refine ⟨ihnd, ?_, ?_⟩
      · intro g hg
        rcases List.mem_cons.1 hg with hg | hg
        · subst hg
          obtain ⟨v, hv, hsha⟩ := ha
          exact ⟨v, (ihframe g.stem hstems.1).trans hv, hsha⟩
        · exact ihfc g hg
      · intro s hs
        simp only [List.map_cons, List.mem_cons] at hs
        push_neg at hs
        exact (ihframe s hs.2).trans (hb s hs.1)

theorem meta_update_idempotent (sha1fn : Bytes → String)
    (files : List VersionJsonFile) (m m₁ : Meta) (d : Bool)
    (hstems : (files.map (fun f => f.stem)).Nodup)
    (hne : ∀ f ∈ files, sha1fn f.bytes ≠ "")
    (hnd : (m.minecraft.map (fun v => v.file_id)).Nodup)
    (hrun : Meta.update sha1fn files m = ⟨m₁, none, d⟩) :
    Meta.update sha1fn files m₁ = ⟨m₁, none, false⟩ := by
  simp only [Meta.update] at hrun
  rcases hq : metaUpdateLoop sha1fn files m.minecraft false with ⟨vs, e, d₀⟩
  rw [hq] at hrun
  cases e with
  | some err =>
    injection hrun with h1 h2 h3
    exact Option.noConfusion h2
  | none =>
    obtain ⟨hnd', hfc, _⟩ :=
      metaUpdateLoop_establishes sha1fn files m.minecraft false vs d₀ hq
        hstems hne hnd
    have hfc₁ : ∀ g ∈ files, foundClean sha1fn g m₁.minecraft := by
      cases d₀ with
      | true =>
        have hrun' : (⟨⟨m.commit, sortVersionsDesc vs⟩, none, true⟩ : RecResult Meta) =
            ⟨m₁, none, d⟩ := hrun
        injection hrun' with h1 h2 h3
        have hm : m₁.minecraft = sortVersionsDesc vs := by rw [← h1]
        intro g hg
        obtain ⟨v, hv, hsha⟩ := hfc g hg
        refine ⟨v, ?_, hsha⟩
        rw [hm, find?_eq_of_perm_of_nodup_map (fun v => v.file_id) g.stem vs
          (sortVersionsDesc vs) (stableSort_perm _ vs).symm hnd']
        exact hv
      | false =>
        have hrun' : (⟨⟨m.commit, vs⟩, none, false⟩ : RecResult Meta) =
            ⟨m₁, none, d⟩ := hrun
        injection hrun' with h1 h2 h3
        have hm : m₁.minecraft = vs := by rw [← h1]
        intro g hg
        obtain ⟨v, hv, hsha⟩ := hfc g hg
        exact ⟨v, by rw [hm]; exact hv, hsha⟩
    simp only [Meta.update]
    rw [metaUpdateLoop_skip sha1fn files m₁.minecraft hfc₁]
    rfl

/-- Well-formedness of a nested store dict: outer keys unique, and each
inner dict's keys unique. -/
def dictWF {V : Type} (d : List (String × List (String × V))) : Prop :=
  (dictKeys d).Nodup ∧ ∀ p ∈ d, (dictKeys p.2).Nodup

theorem jarsJLoop_skip (env : JarsEnv) :
    ∀ (jl : List (String × MetaJar)) (inner : List (String × JarsJar)) (fs : FS)
      (evs : List JarsEvent) (dirty : Bool),
    (∀ p ∈ jl, ∃ r, dictLookup inner p.1 = some r ∧ r.jar_sha1_meta = p.2.sha1) →
    jarsJLoop env jl inner fs evs dirty = (inner, fs, evs, none, dirty) := by
  intro jl
  induction jl with
  | nil => intro inner fs evs dirty _; rfl
  | cons hd tl ih =>
    intro inner fs evs dirty h
    obtain ⟨k, m⟩ := hd
    obtain ⟨r, hr, hsha⟩ := h (k, m) (List.mem_cons_self _ _)
    simp only at hr hsha
    simp only [jarsJLoop, hr, jarsJar_update_skip env r m fs hsha.symm,
      dictInsert_lookup_eq inner k r hr, List.append_nil]
    exact ih inner fs evs dirty (fun p hp => h p (List.mem_cons_of_mem _ hp))

theorem jarsVLoop_skip (env : JarsEnv) :
    ∀ (ms : List MetaVersion)
      (versions : List (String × List (String × JarsJar))) (fs : FS)
      (evs : List JarsEvent) (dirty : Bool),
    (∀ v ∈ ms, ∃ inner, dictLookup versions v.id = some inner ∧
      ∀ p ∈ v.jars, ∃ r, dictLookup inner p.1 = some r ∧
        r.jar_sha1_meta = p.2.sha1) →
    jarsVLoop env ms versions fs evs dirty = (versions, fs, evs, none, dirty) := by
  intro ms
  induction ms with
  | nil => intro versions fs evs dirty _; rfl
  | cons v vs ih =>
    intro versions fs evs dirty h
    obtain ⟨inner, hv, hjars⟩ := h v (List.mem_cons_self _ _)
    have hcont : dictContains versions v.id = true := by
      simp [dictContains, hv]
    simp only [jarsVLoop, hcont, if_true, hv, Option.getD_some,
      jarsJLoop_skip env v.jars inner fs evs dirty hjars,
      dictInsert_lookup_eq versions v.id inner hv]
    exact ih versions fs evs dirty (fun w hw => h w (List.mem_cons_of_mem _ hw))

theorem jarsJLoop_establishes (env : JarsEnv) :
    ∀ (jl : List (String × MetaJar)) (inner : List (String × JarsJar)) (fs : FS)
      (evs : List JarsEvent) (dirty : Bool) inner' fs' evs' d',
    jarsJLoop env jl inner fs evs dirty = (inner', fs', evs', none, d') →
    (dictKeys inner).Nodup →
    (jl.map Prod.fst).Nodup →
    (dictKeys inner').Nodup ∧
    (∀ p ∈ jl, ∃ r, dictLookup inner' p.1 = some r ∧
      r.jar_sha1_meta = p.2.sha1) ∧
    (∀ k, k ∉ jl.map Prod.fst → dictLookup inner' k = dictLookup inner k) := by
  intro jl
  induction jl with
  | nil =>
    intro inner fs evs dirty inner' fs' evs' d' h hnd _
    simp only [jarsJLoop] at h
    injection h with h1 h2
    injection h2 with h2 h3
    injection h3 with h3 h4
    subst h1
    exact ⟨hnd, by simp, fun k _ => rfl⟩
  | cons hd tl ih =>
    intro inner fs evs dirty inner' fs' evs' d' h hnd hkeys
    obtain ⟨k, m⟩ := hd
    simp only [List.map_cons, List.nodup_cons] at hkeys
    simp only [jarsJLoop] at h
    rcases hl : dictLookup inner k with _ | rec0
    · rw [hl] at h
      rcases hfm : JarsJar.from_meta_jar env m fs with ⟨jar, fs₂, evs₂, err, dd⟩
      rw [hfm] at h
      simp only at h
      cases err with
      | some e =>
        injection h with h1 h2
        injection h2 with h2 h3
        injection h3 with h3 h4
        injection h4 with h4 h5
        exact Option.noConfusion h4
      | none =>
        have hsha : jar.jar_sha1_meta = m.sha1 := by
          have hz := from_meta_jar_sha_meta env m fs (by rw [hfm])
          rw [hfm] at hz
          exact hz
        have hnd₁ : (dictKeys (dictInsert inner k jar)).Nodup :=
          dictKeys_nodup_insert inner k jar hnd
        obtain ⟨ihnd, ihfacts, ihframe⟩ :=
          ih (dictInsert inner k jar) fs₂ (evs ++ evs₂) true inner' fs' evs' d'
            h hnd₁ hkeys.2
        refine ⟨ihnd, ?_, ?_⟩
        · intro p hp
          rcases List.mem_cons.1 hp with hp | hp
          · subst hp
            refine ⟨jar, ?_, hsha⟩
            rw [ihframe k hkeys.1]
            exact dictLookup_insert_self inner k jar
          · exact ihfacts p hp
        · intro k' hk'
          simp only [List.map_cons, List.mem_cons] at hk'
          push_neg at hk'
          rw [ihframe k' hk'.2]
          exact dictLookup_insert_ne inner k k' jar hk'.1
    · rw [hl] at h
      simp only at h
      rcases hup : rec0.update env m fs with ⟨jar, fs₂, evs₂, err, dd⟩
      rw [hup] at h
      simp only at h
      cases err with
      | some e =>
        injection h with h1 h2
        injection h2 with h2 h3
        injection h3 with h3 h4
        injection h4 with h4 h5
        exact Option.noConfusion h4
      | none =>
        have hsha : jar.jar_sha1_meta = m.sha1 := by
          have hz := jarsJar_update_sha_meta env rec0 m fs (by rw [hup])
          rw [hup] at hz
          exact hz
        have hnd₁ : (dictKeys (dictInsert inner k jar)).Nodup :=
          dictKeys_nodup_insert inner k jar hnd
        have hlk₁ : dictLookup (dictInsert inner k jar) k = some jar :=
          dictLookup_insert_self inner k jar
        cases dd with
        | true =>
          rw [if_pos rfl] at h
          have hnds : (dictKeys (sort_dict (dictInsert inner k jar))).Nodup :=
            sort_dict_keys_nodup _ hnd₁
          obtain ⟨ihnd, ihfacts, ihframe⟩ :=
            ih (sort_dict (dictInsert inner k jar)) fs₂ (evs ++ evs₂) true
              inner' fs' evs' d' h hnds hkeys.2
          refine ⟨ihnd, ?_, ?_⟩
          · intro p hp
            rcases List.mem_cons.1 hp with hp | hp
            · subst hp
              refine ⟨jar, ?_, hsha⟩
              rw [ihframe k hkeys.1, sort_dict_lookup _ hnd₁]
              exact hlk₁
            · exact ihfacts p hp
          · intro k' hk'
            simp only [List.map_cons, List.mem_cons] at hk'
            push_neg at hk'
            rw [ihframe k' hk'.2, sort_dict_lookup _ hnd₁]
            exact dictLookup_insert_ne inner k k' jar hk'.1
        | false =>
          rw [if_neg (by simp)] at h
          obtain ⟨ihnd, ihfacts, ihframe⟩ :=
            ih (dictInsert inner k jar) fs₂ (evs ++ evs₂) dirty
              inner' fs' evs' d' h hnd₁ hkeys.2
          refine ⟨ihnd, ?_, ?_⟩
          · intro p hp
            rcases List.mem_cons.1 hp with hp | hp
            · subst hp
              refine ⟨jar, ?_, hsha⟩
              rw [ihframe k hkeys.1]
              exact hlk₁
            · exact ihfacts p hp
          · intro k' hk'
            simp only [List.map_cons, List.mem_cons] at hk'
            push_neg at hk'
            rw [ihframe k' hk'.2]
            exact dictLookup_insert_ne inner k k' jar hk'.1

theorem jarsVLoop_establishes (env : JarsEnv) :
    ∀ (ms : List MetaVersion)
      (versions : List (String × List (String × JarsJar))) (fs : FS)
      (evs : List JarsEvent) (dirty : Bool) versions' fs' evs' d',
    jarsVLoop env ms versions fs evs dirty = (versions', fs', evs', none, d') →
    (ms.map (fun v => v.id)).Nodup →
    (∀ v ∈ ms, (dictKeys v.jars).Nodup) →
    dictWF versions →
    dictWF versions' ∧
    (∀ v ∈ ms, ∃ inner, dictLookup versions' v.id = some inner ∧
      ∀ p ∈ v.jars, ∃ r, dictLookup inner p.1 = some r ∧
        r.jar_sha1_meta = p.2.sha1) ∧
    (∀ id, id ∉ ms.map (fun v => v.id) →
      dictLookup versions' id = dictLookup versions id) := by
  intro ms
  induction ms with
  | nil =>
    intro versions fs evs dirty versions' fs' evs' d' h _ _ hwf
    simp only [jarsVLoop] at h
    injection h with h1 h2
    injection h2 with h2 h3
    injection h3 with h3 h4
    subst h1
    exact ⟨hwf, by simp, fun id _ => rfl⟩
  | cons v vs ih =>
    intro versions fs evs dirty versions' fs' evs' d' h hids hjk hwf
    simp only [List.map_cons, List.nodup_cons] at hids
    simp only [jarsVLoop] at h
    by_cases hc : dictContains versions v.id = true
    · rw [if_pos hc] at h
      rcases hl : dictLookup versions v.id with _ | inner0
      · rw [dictContains, hl] at hc
        exact Bool.noConfusion hc
      · rw [hl] at h
        simp only [Option.getD_some] at h
        rcases hjl : jarsJLoop env v.jars inner0 fs evs dirty
          with ⟨inner₁, fs₁, evs₁, e₁, d₁⟩
        rw [hjl] at h
        cases e₁ with
        | some e =>
          injection h with h1 h2
          injection h2 with h2 h3
          injection h3 with h3 h4
          injection h4 with h4 h5
          exact Option.noConfusion h4
        | none =>
          have hnd0 : (dictKeys inner0).Nodup :=
            hwf.2 (v.id, inner0) (dictLookup_mem _ _ _ hl)
          obtain ⟨jnd, jfacts, _⟩ := jarsJLoop_establishes env v.jars inner0 fs
            evs dirty inner₁ fs₁ evs₁ d₁ hjl hnd0 (hjk v (List.mem_cons_self _ _))
          have hwf₂ : dictWF (dictInsert versions v.id inner₁) := by
            refine ⟨dictKeys_nodup_insert _ _ _ hwf.1, ?_⟩
            intro p hp
            rcases mem_dictInsert _ _ _ _ hp with hin | heq
            · exact hwf.2 p hin
            · rw [heq]
              exact jnd
          obtain ⟨iwf, ifacts, iframe⟩ := ih (dictInsert versions v.id inner₁)
            fs₁ evs₁ d₁ versions' fs' evs' d' h hids.2
            (fun w hw => hjk w (List.mem_cons_of_mem _ hw)) hwf₂
          refine ⟨iwf, ?_, ?_⟩
          · intro w hw
            rcases List.mem_cons.1 hw with hw | hw
            · subst hw
              refine ⟨inner₁, ?_, jfacts⟩
              rw [iframe w.id hids.1]
              exact dictLookup_insert_self versions w.id inner₁
            · exact ifacts w hw
          · intro id hid
            simp only [List.map_cons, List.mem_cons] at hid
            push_neg at hid
            rw [iframe id hid.2]
            exact dictLookup_insert_ne versions v.id id inner₁ hid.1
    · rw [if_neg hc] at h
      rw [dictLookup_insert_self versions v.id []] at h
      simp only [Option.getD_some] at h
      rcases hjl : jarsJLoop env v.jars [] fs evs true
        with ⟨inner₁, fs₁, evs₁, e₁, d₁⟩
      rw [hjl] at h
      cases e₁ with
      | some e =>
        injection h with h1 h2
        injection h2 with h2 h3
        injection h3 with h3 h4
        injection h4 with h4 h5
        exact Option.noConfusion h4
      | none =>
        obtain ⟨jnd, jfacts, _⟩ := jarsJLoop_establishes env v.jars [] fs
          evs true inner₁ fs₁ evs₁ d₁ hjl (by simp [dictKeys])
          (hjk v (List.mem_cons_self _ _))
        have hwf₂ : dictWF (dictInsert (dictInsert versions v.id []) v.id inner₁) := by
          refine ⟨dictKeys_nodup_insert _ _ _
            (dictKeys_nodup_insert _ _ _ hwf.1), ?_⟩
          intro p hp
          rcases mem_dictInsert _ _ _ _ hp with hin | heq
          · rcases mem_dictInsert _ _ _ _ hin with hin2 | heq2
            · exact hwf.2 p hin2
            · rw [heq2]
              simp [dictKeys]
          · rw [heq]
            exact jnd
        obtain ⟨iwf, ifacts, iframe⟩ := ih
          (dictInsert (dictInsert versions v.id []) v.id inner₁)
          fs₁ evs₁ d₁ versions' fs' evs' d' h hids.2
          (fun w hw => hjk w (List.mem_cons_of_mem _ hw)) hwf₂
        refine ⟨iwf, ?_, ?_⟩
        · intro w hw
          rcases List.mem_cons.1 hw with hw | hw
          · subst hw
            refine ⟨inner₁, ?_, jfacts⟩
            rw [iframe w.id hids.1]
            exact dictLookup_insert_self _ w.id inner₁
          · exact ifacts w hw
        · intro id hid
          simp only [List.map_cons, List.mem_cons] at hid
          push_neg at hid
          rw [iframe id hid.2,
            dictLookup_insert_ne _ v.id id inner₁ hid.1,
            dictLookup_insert_ne versions v.id id [] hid.1]

theorem jars_update_idempotent (env : JarsEnv) (meta : Meta) (jars jars₁ : Jars)
    (fs fs₁ : FS) (evs : List JarsEvent) (d : Bool)
    (hids : (meta.minecraft.map (fun v => v.id)).Nodup)
    (hjk : ∀ v ∈ meta.minecraft, (dictKeys v.jars).Nodup)
    (hwf : dictWF jars.versions)
    (hrun : Jars.update env meta jars fs = ⟨jars₁, fs₁, evs, none, d⟩) :
    Jars.update env meta jars₁ fs₁ = ⟨jars₁, fs₁, [], none, false⟩ := by
  simp only [Jars.update] at hrun
  rcases hv : jarsVLoop env meta.minecraft.reverse jars.versions fs [] false
    with ⟨versions, fs₀, evs₀, e₀, d₀⟩
  rw [hv] at hrun
  cases e₀ with
  | some e =>
    injection hrun with h1 h2 h3 h4 h5
    exact Option.noConfusion h4
  | none =>
    have hids' : (meta.minecraft.reverse.map (fun v => v.id)).Nodup := by
      rw [List.map_reverse]
      exact List.nodup_reverse.2 hids
    have hjk' : ∀ v ∈ meta.minecraft.reverse, (dictKeys v.jars).Nodup :=
      fun v hv0 => hjk v (List.mem_reverse.1 hv0)
    obtain ⟨hwf', hQ, _⟩ := jarsVLoop_establishes env meta.minecraft.reverse
      jars.versions fs [] false versions fs₀ evs₀ d₀ hv hids' hjk' hwf
    have hQ₁ : ∀ v ∈ meta.minecraft.reverse, ∃ inner,
        dictLookup jars₁.versions v.id = some inner ∧
        ∀ p ∈ v.jars, ∃ r, dictLookup inner p.1 = some r ∧
          r.jar_sha1_meta = p.2.sha1 := by
      cases d₀ with
      | true =>
        have hrun' :
            (match sortOuterByTimeDesc
                (Jars.get_version_release_time ⟨versions⟩) versions with
             | Except.error e => (⟨⟨versions⟩, fs₀, evs₀, some e, false⟩ : JarsUpd)
             | Except.ok versions' => ⟨⟨versions'⟩, fs₀, evs₀, none, true⟩) =
              ⟨jars₁, fs₁, evs, none, d⟩ := hrun
        rcases hs : sortOuterByTimeDesc
            (Jars.get_version_release_time ⟨versions⟩) versions with e | out
        · rw [hs] at hrun'
          injection hrun' with h1 h2 h3 h4 h5
          exact Option.noConfusion h4
        · rw [hs] at hrun'
          injection hrun' with h1 h2 h3 h4 h5
          have hm : jars₁.versions = out := by rw [← h1]
          have hperm : versions.Perm out :=
            (sortOuterByTimeDesc_perm _ versions out hs).symm
          intro v hv0
          obtain ⟨inner, hl, hfacts⟩ := hQ v hv0
          refine ⟨inner, ?_, hfacts⟩
          rw [hm, dictLookup_eq_of_perm versions out hperm hwf'.1]
          exact hl
      | false =>
        have hrun' : (⟨⟨versions⟩, fs₀, evs₀, none, false⟩ : JarsUpd) =
            ⟨jars₁, fs₁, evs, none, d⟩ := hrun
        injection hrun' with h1 h2 h3 h4 h5
        have hm : jars₁.versions = versions := by rw [← h1]
        intro v hv0
        obtain ⟨inner, hl, hfacts⟩ := hQ v hv0
        exact ⟨inner, by rw [hm]; exact hl, hfacts⟩
    simp only [Jars.update]
    rw [jarsVLoop_skip env meta.minecraft.reverse jars₁.versions fs₁ [] false hQ₁]
    rfl

theorem indexLoop_skip :
    ∀ (jl : List JarsJar)
      (mappings : List (String × List (String × IndexMapping))) (dirty : Bool),
    (∀ j ∈ jl, ∃ inner, dictLookup mappings j.version_id = some inner ∧
      ∃ m, dictLookup inner j.jar_key = some m ∧
        m.update j = ⟨m, none, false⟩) →
    indexLoop jl mappings dirty = (mappings, none, dirty) := by
  intro jl
  induction jl with
  | nil => intro mappings dirty _; rfl
  | cons j tl ih =>
    intro mappings dirty h
    obtain ⟨inner, hv, m, hm, hupd⟩ := h j (List.mem_cons_self _ _)
    have hcont : dictContains mappings j.version_id = true := by
      simp [dictContains, hv]
    simp only [indexLoop, hcont, if_true, hv, Option.getD_some, hm, hupd,
      dictInsert_lookup_eq inner j.jar_key m hm,
      dictInsert_lookup_eq mappings j.version_id inner hv]
    exact ih mappings dirty (fun j' hj' => h j' (List.mem_cons_of_mem _ hj'))

theorem indexLoop_establishes :
    ∀ (jl : List JarsJar)
      (mappings : List (String × List (String × IndexMapping))) (dirty : Bool)
      mappings' d',
    indexLoop jl mappings dirty = (mappings', none, d') →
    List.Pairwise
      (fun a b : JarsJar => a.version_id ≠ b.version_id ∨ a.jar_key ≠ b.jar_key)
      jl →
    dictWF mappings →
    dictWF mappings' ∧
    (∀ j ∈ jl, ∃ inner, dictLookup mappings' j.version_id = some inner ∧
      ∃ m, dictLookup inner j.jar_key = some m ∧
        m.update j = ⟨m, none, false⟩) ∧
    (∀ vid k, (∀ j' ∈ jl, j'.version_id ≠ vid ∨ j'.jar_key ≠ k) →
      dictLookup ((dictLookup mappings' vid).getD []) k =
        dictLookup ((dictLookup mappings vid).getD []) k) := by
  intro jl
  induction jl with
  | nil =>
    intro mappings dirty mappings' d' h _ hwf
    simp only [indexLoop] at h
    injection h with h1 h2
    injection h2 with h2 h3
    subst h1
    exact ⟨hwf, by simp, fun vid k _ => rfl⟩
  | cons j tl ih =>
    intro mappings dirty mappings' d' h hpair hwf
    have hrel : ∀ j' ∈ tl, j'.version_id ≠ j.version_id ∨ j'.jar_key ≠ j.jar_key :=
      fun j' hj' => ((List.pairwise_cons.1 hpair).1 j' hj').imp Ne.symm Ne.symm
    have htl := (List.pairwise_cons.1 hpair).2
    simp only [indexLoop] at h
    -- the cell update that one iteration performs, uniformly described
    by_cases hc : dictContains mappings j.version_id = true
    · rw [if_pos hc] at h
      rcases hl : dictLookup mappings j.version_id with _ | inner0
      · rw [dictContains, hl] at hc
        exact Bool.noConfusion hc
      · rw [hl] at h
        simp only [Option.getD_some] at h
        have hnd0 : (dictKeys inner0).Nodup :=
          hwf.2 (j.version_id, inner0) (dictLookup_mem _ _ _ hl)
        rcases hm : dictLookup inner0 j.jar_key with _ | m0
        · rw [hm] at h
          -- create
          have hwf₂ : dictWF (dictInsert mappings j.version_id
              (dictInsert inner0 j.jar_key (IndexMapping.from_jar j))) := by
            refine ⟨dictKeys_nodup_insert _ _ _ hwf.1, ?_⟩
            intro p hp
            rcases mem_dictInsert _ _ _ _ hp with hin | heq
            · exact hwf.2 p hin
            · rw [heq]
              exact dictKeys_nodup_insert _ _ _ hnd0
          obtain ⟨iwf, ifacts, iframe⟩ := ih _ true mappings' d' h htl hwf₂
          refine ⟨iwf, ?_, ?_⟩
          · intro j' hj'
            rcases List.mem_cons.1 hj' with hj' | hj'
            · subst hj'
              have hcell := iframe j'.version_id j'.jar_key hrel
              rw [dictLookup_insert_self, Option.getD_some,
                dictLookup_insert_self] at hcell
              rcases hfin : dictLookup mappings' j'.version_id with _ | innerF
              · rw [hfin] at hcell
                simp [dictLookup] at hcell
              · rw [hfin] at hcell
                simp only [Option.getD_some] at hcell
                exact ⟨innerF, rfl, IndexMapping.from_jar j', hcell,
                  indexMapping_update_self j'⟩
            · exact ifacts j' hj'
          · intro vid k hout
            have hj := hout j (List.mem_cons_self _ _)
            rw [iframe vid k (fun j' hj' => hout j' (List.mem_cons_of_mem _ hj'))]
            by_cases hvid : j.version_id = vid
            · subst hvid
              rw [dictLookup_insert_self, Option.getD_some, hl, Option.getD_some]
              rcases hj with hj | hj
              · exact absurd rfl hj
              · exact dictLookup_insert_ne inner0 j.jar_key k _ (Ne.symm hj)
            · rw [dictLookup_insert_ne mappings j.version_id vid _ (Ne.symm hvid)]
        · rw [hm] at h
          simp only at h
          rcases hup : m0.update j with ⟨mst, err, dd⟩
          rw [hup] at h
          simp only at h
          cases err with
          | some e =>
            injection h with h1 h2
            injection h2 with h2 h3
            exact Option.noConfusion h2
          | none =>
            have hstable : IndexMapping.update mst j = ⟨mst, none, false⟩ := by
              have hz := indexMapping_update_stable m0 j (by rw [hup])
              rw [hup] at hz
              exact hz
            have hnd₁ : (dictKeys (dictInsert inner0 j.jar_key mst)).Nodup :=
              dictKeys_nodup_insert _ _ _ hnd0
            cases dd with
            | true =>
              rw [if_pos rfl] at h
              have hwf₂ : dictWF (dictInsert
                  (dictInsert mappings j.version_id (dictInsert inner0 j.jar_key mst))
                  j.version_id (sort_dict (dictInsert inner0 j.jar_key mst))) := by
                refine ⟨dictKeys_nodup_insert _ _ _
                  (dictKeys_nodup_insert _ _ _ hwf.1), ?_⟩
                intro p hp
                rcases mem_dictInsert _ _ _ _ hp with hin | heq
                · rcases mem_dictInsert _ _ _ _ hin with hin2 | heq2
                  · exact hwf.2 p hin2
                  · rw [heq2]
                    exact hnd₁
                · rw [heq]
                  exact sort_dict_keys_nodup _ hnd₁
              obtain ⟨iwf, ifacts, iframe⟩ := ih _ true mappings' d' h htl hwf₂
              refine ⟨iwf, ?_, ?_⟩
              · intro j' hj'
                rcases List.mem_cons.1 hj' with hj' | hj'
                · subst hj'
                  have hcell := iframe j'.version_id j'.jar_key hrel
                  rw [dictLookup_insert_self, Option.getD_some,
                    sort_dict_lookup _ hnd₁, dictLookup_insert_self] at hcell
                  rcases hfin : dictLookup mappings' j'.version_id with _ | innerF
                  · rw [hfin] at hcell
                    simp [dictLookup] at hcell
                  · rw [hfin] at hcell
                    simp only [Option.getD_some] at hcell
                    exact ⟨innerF, rfl, mst, hcell, hstable⟩
                · exact ifacts j' hj'
              · intro vid k hout
                have hj := hout j (List.mem_cons_self _ _)
                rw [iframe vid k
                  (fun j' hj' => hout j' (List.mem_cons_of_mem _ hj'))]
                by_cases hvid : j.version_id = vid
                · subst hvid
                  rw [dictLookup_insert_self, Option.getD_some, hl,
                    Option.getD_some, sort_dict_lookup _ hnd₁]
                  rcases hj with hj | hj
                  · exact absurd rfl hj
                  · exact dictLookup_insert_ne inner0 j.jar_key k _ (Ne.symm hj)
                · rw [dictLookup_insert_ne _ j.version_id vid _ (Ne.symm hvid),
                    dictLookup_insert_ne mappings j.version_id vid _ (Ne.symm hvid)]
            | false =>
              rw [if_neg (by simp)] at h
              have hwf₂ : dictWF (dictInsert mappings j.version_id
                  (dictInsert inner0 j.jar_key mst)) := by
                refine ⟨dictKeys_nodup_insert _ _ _ hwf.1, ?_⟩
                intro p hp
                rcases mem_dictInsert _ _ _ _ hp with hin | heq
                · exact hwf.2 p hin
                · rw [heq]
                  exact hnd₁
              obtain ⟨iwf, ifacts, iframe⟩ := ih _ dirty mappings' d' h htl hwf₂
              refine ⟨iwf, ?_, ?_⟩
              · intro j' hj'
                rcases List.mem_cons.1 hj' with hj' | hj'
                · subst hj'
                  have hcell := iframe j'.version_id j'.jar_key hrel
                  rw [dictLookup_insert_self, Option.getD_some,
                    dictLookup_insert_self] at hcell
                  rcases hfin : dictLookup mappings' j'.version_id with _ | innerF
                  · rw [hfin] at hcell
                    simp [dictLookup] at hcell
                  · rw [hfin] at hcell
                    simp only [Option.getD_some] at hcell
                    exact ⟨innerF, rfl, mst, hcell, hstable⟩
                · exact ifacts j' hj'
              · intro vid k hout
                have hj := hout j (List.mem_cons_self _ _)
                rw [iframe vid k
                  (fun j' hj' => hout j' (List.mem_cons_of_mem _ hj'))]
                by_cases hvid : j.version_id = vid
                · subst hvid
                  rw [dictLookup_insert_self, Option.getD_some, hl, Option.getD_some]
                  rcases hj with hj | hj
                  · exact absurd rfl hj
                  · exact dictLookup_insert_ne inner0 j.jar_key k _ (Ne.symm hj)
                · rw [dictLookup_insert_ne mappings j.version_id vid _ (Ne.symm hvid)]
    · rw [if_neg hc] at h
      rw [dictLookup_insert_self mappings j.version_id []] at h
      simp only [Option.getD_some] at h
      have hmnone : dictLookup ([] : List (String × IndexMapping)) j.jar_key =
          none := rfl
      rw [hmnone] at h
      have hlnone : dictLookup mappings j.version_id = none := by
        rcases hq : dictLookup mappings j.version_id with _ | x
        · rfl
        · rw [dictContains, hq] at hc
          simp at hc
      have hwf₂ : dictWF (dictInsert (dictInsert mappings j.version_id [])
          j.version_id (dictInsert [] j.jar_key (IndexMapping.from_jar j))) := by
        refine ⟨dictKeys_nodup_insert _ _ _
          (dictKeys_nodup_insert _ _ _ hwf.1), ?_⟩
        intro p hp
        rcases mem_dictInsert _ _ _ _ hp with hin | heq
        · rcases mem_dictInsert _ _ _ _ hin with hin2 | heq2
          · exact hwf.2 p hin2
          · rw [heq2]
            simp [dictKeys]
        · rw [heq]
          simp [dictKeys, dictInsert]
      obtain ⟨iwf, ifacts, iframe⟩ := ih _ true mappings' d' h htl hwf₂
      refine ⟨iwf, ?_, ?_⟩
      · intro j' hj'
        rcases List.mem_cons.1 hj' with hj' | hj'
        · subst hj'
          have hcell := iframe j'.version_id j'.jar_key hrel
          rw [dictLookup_insert_self, Option.getD_some,
            dictLookup_insert_self] at hcell
          rcases hfin : dictLookup mappings' j'.version_id with _ | innerF
          · rw [hfin] at hcell
            simp [dictLookup] at hcell
          · rw [hfin] at hcell
            simp only [Option.getD_some] at hcell
            exact ⟨innerF, rfl, IndexMapping.from_jar j', hcell,
              indexMapping_update_self j'⟩
        · exact ifacts j' hj'
      · intro vid k hout
        have hj := hout j (List.mem_cons_self _ _)
        rw [iframe vid k (fun j' hj' => hout j' (List.mem_cons_of_mem _ hj'))]
        by_cases hvid : j.version_id = vid
        · subst hvid
          rw [dictLookup_insert_self, Option.getD_some, hlnone]
          rcases hj with hj | hj
          · exact absurd rfl hj
          · rw [dictLookup_insert_ne _ j.jar_key k _ (Ne.symm hj)]
            rfl
        · rw [dictLookup_insert_ne _ j.version_id vid _ (Ne.symm hvid),
            dictLookup_insert_ne mappings j.version_id vid _ (Ne.symm hvid)]

theorem index_update_idempotent (jars : Jars) (idx idx₁ : Index) (d : Bool)
    (hpair : List.Pairwise
      (fun a b : JarsJar => a.version_id ≠ b.version_id ∨ a.jar_key ≠ b.jar_key)
      (jarsAll jars.versions))
    (hwf : dictWF idx.mappings)
    (hrun : Index.update jars idx = ⟨idx₁, none, d⟩) :
    Index.update jars idx₁ = ⟨idx₁, none, false⟩ := by
  simp only [Index.update] at hrun
  rcases hl : indexLoop (jarsAll jars.versions) idx.mappings false
    with ⟨mappings, e₀, d₀⟩
  rw [hl] at hrun
  cases e₀ with
  | some e =>
    injection hrun with h1 h2 h3
    exact Option.noConfusion h2
  | none =>
    obtain ⟨hwf', hQ, _⟩ := indexLoop_establishes (jarsAll jars.versions)
      idx.mappings false mappings d₀ hl hpair hwf
    have hQ₁ : ∀ j ∈ jarsAll jars.versions, ∃ inner,
        dictLookup idx₁.mappings j.version_id = some inner ∧
        ∃ m, dictLookup inner j.jar_key = some m ∧
          m.update j = ⟨m, none, false⟩ := by
      cases d₀ with
      | true =>
        have hrun' :
            (match sortOuterByTimeDesc (indexGetVersionReleaseTime mappings)
                mappings with
             | Except.error e =>
               (⟨{ idx with mappings := mappings }, some e, false⟩ : RecResult Index)
             | Except.ok out => ⟨{ idx with mappings := out }, none, true⟩) =
              ⟨idx₁, none, d⟩ := hrun
        rcases hs : sortOuterByTimeDesc (indexGetVersionReleaseTime mappings)
            mappings with e | out
        · rw [hs] at hrun'
          injection hrun' with h1 h2 h3
          exact Option.noConfusion h2
        · rw [hs] at hrun'
          injection hrun' with h1 h2 h3
          have hm : idx₁.mappings = out := by rw [← h1]
          have hperm : mappings.Perm out :=
            (sortOuterByTimeDesc_perm _ mappings out hs).symm
          intro j hj
          obtain ⟨inner, hli, rest⟩ := hQ j hj
          refine ⟨inner, ?_, rest⟩
          rw [hm, dictLookup_eq_of_perm mappings out hperm hwf'.1]
          exact hli
      | false =>
        have hrun' : (⟨{ idx with mappings := mappings }, none, false⟩ :
            RecResult Index) = ⟨idx₁, none, d⟩ := hrun
        injection hrun' with h1 h2 h3
        have hm : idx₁.mappings = mappings := by rw [← h1]
        intro j hj
        obtain ⟨inner, hli, rest⟩ := hQ j hj
        exact ⟨inner, by rw [hm]; exact hli, rest⟩
    simp only [Index.update]
    rw [indexLoop_skip (jarsAll jars.versions) idx₁.mappings false hQ₁]
    rfl

/-- Claim C1: for each store, running the reconcile twice against identical
upstream inputs, where the first run returned normally, makes the second
run return not-dirty with the store value unchanged (so its serialized
snapshot is byte-identical; Index.update never touches the save
timestamp).  The well-formedness hypotheses say the upstream inputs and
the starting snapshot are shaped as the pipeline shapes them: descriptor
file stems are distinct and their hashes nonempty, Meta snapshots have
distinct version-file ids, meta version ids are distinct with per-version
jar keys unique, the nested dicts have unique keys, and jars records have
pairwise distinct (version id, jar key). -/
theorem C1_reconcile_idempotent :
    (∀ (sha1fn : Bytes → String) (files : List VersionJsonFile) (m m₁ : Meta)
        (d : Bool),
      (files.map (fun f => f.stem)).Nodup →
      (∀ f ∈ files, sha1fn f.bytes ≠ "") →
      (m.minecraft.map (fun v => v.file_id)).Nodup →
      Meta.update sha1fn files m = ⟨m₁, none, d⟩ →
      Meta.update sha1fn files m₁ = ⟨m₁, none, false⟩) ∧
    (∀ (env : JarsEnv) (meta : Meta) (jars jars₁ : Jars) (fs fs₁ : FS)
        (evs : List JarsEvent) (d : Bool),
      (meta.minecraft.map (fun v => v.id)).Nodup →
      (∀ v ∈ meta.minecraft, (dictKeys v.jars).Nodup) →
      dictWF jars.versions →
      Jars.update env meta jars fs = ⟨jars₁, fs₁, evs, none, d⟩ →
      Jars.update env meta jars₁ fs₁ = ⟨jars₁, fs₁, [], none, false⟩) ∧
    (∀ (jars : Jars) (idx idx₁ : Index) (d : Bool),
      List.Pairwise (fun a b : JarsJar =>
        a.version_id ≠ b.version_id ∨ a.jar_key ≠ b.jar_key)
        (jarsAll jars.versions) →
      dictWF idx.mappings →
      Index.update jars idx = ⟨idx₁, none, d⟩ →
      Index.update jars idx₁ = ⟨idx₁, none, false⟩) :=
  ⟨fun sha1fn files m m₁ d h1 h2 h3 h4 =>
      meta_update_idempotent sha1fn files m m₁ d h1 h2 h3 h4,
   fun env meta jars jars₁ fs fs₁ evs d h1 h2 h3 h4 =>
      jars_update_idempotent env meta jars jars₁ fs fs₁ evs d h1 h2 h3 h4,
   fun jars idx idx₁ d h1 h2 h3 =>
      index_update_idempotent jars idx idx₁ d h1 h2 h3⟩

def c1meta1 : Meta :=
  { commit := ""
    minecraft := [{ id := "1.0", file_id := "f", release_time := 3,
                    sha1 := "OTHER", jars := [] }] }

/-- Witness for C1 at concrete inputs, one run pair per store. -/
theorem C1_witness :
    Meta.update c2fnNe [c2f] c1meta1 = ⟨c1meta1, none, false⟩ ∧
    Jars.update c6env c6meta ⟨c6out⟩ [("mappings/C-client.jar", [3])] =
      ⟨⟨c6out⟩, [("mappings/C-client.jar", [3])], [], none, false⟩ ∧
    Index.update c5jars { timestamp := 0, mappings := c5mappings } =
      ⟨{ timestamp := 0, mappings := c5mappings }, none, false⟩ :=
  ⟨C1_reconcile_idempotent.1 c2fnNe [c2f] c5metaEmpty c1meta1 true (by decide)
     (by decide) (by decide) rfl,
   C1_reconcile_idempotent.2.1 c6env c6meta c6jars ⟨c6out⟩ []
     [("mappings/C-client.jar", [3])] [JarsEvent.download "uC", JarsEvent.convert]
     true (by decide) (by decide) ⟨by decide, by decide⟩ rfl,
   C1_reconcile_idempotent.2.2 c5jars { timestamp := 0, mappings := [] }
     { timestamp := 0, mappings := c5mappings } true (by decide)
     ⟨by decide, by decide⟩ rfl⟩
